import Mathlib

/-!
Verification development for the flowstate workflow engine.

This file gives a shallow embedding, in Lean 4, of the TypeScript sources
(src/error.ts, the function-reference module, src/operation.ts,
src/workflow.ts) and proves or refutes the frozen claims about them.

Modelling conventions, used uniformly below:

* JavaScript values that can flow through operations are modelled by the
  inductive type `Val` (JSON-style values: null, booleans, numbers, strings,
  arrays, string-keyed objects in insertion order).  JS `undefined` is
  modelled by `Option.none` at the positions where the source distinguishes
  it (function inputs); JS objects preserve insertion order, hence lists.
* `JSON.stringify` is modelled by `Val.stringify` (deterministic, follows
  the JS rendering).  `sha256` is modelled by `sha256Hex`, an injective
  stand-in (the identity on strings): the code only ever compares hashes
  for equality, and treating the hash as collision-free is the intended
  reading of a cryptographic hash.  `terser.minify_sync` is modelled by
  `minifySync`, an identity normalizer; a callable's `toString()` source
  text is the `src` field of `Callable`.
* `base64(JSON.stringify v)` / `JSON.parse(base64decode s)` form a
  bijection between JSON values and the encoded strings, so marshaled
  payload fields that hold such encodings are modelled at the `Val` level
  (the field stores the decoded value); `Buffer.from(..).toString("base64")`
  and its inverse therefore disappear from the model.  Byte identity of two
  snapshots is equivalent to equality of the modelled snapshots because the
  encoding is injective.
* Thrown JS exceptions are modelled with `Except JsError`; `WorkflowError`
  instances become the tagged constructors of `JsError` carrying their
  message, and non-WorkflowError throws (library errors, user throws) use
  `JsError.external`.
* Mutation is modelled by state passing: methods that mutate an object
  return the updated object alongside their result.
-/

/-- A JSON-style JavaScript value: null, boolean, number, string, array, or
object with string keys in insertion order. -/
inductive Val where
  | null : Val
  | bool (b : Bool) : Val
  | num (n : Int) : Val
  | str (s : String) : Val
  | arr (items : List Val) : Val
  | obj (fields : List (String × Val)) : Val

mutual

/-- Boolean equality on `Val`, by structural recursion. -/
def Val.beq : Val → Val → Bool
  | .null, .null => true
  | .bool a, .bool b => a == b
  | .num a, .num b => a == b
  | .str a, .str b => a == b
  | .arr a, .arr b => Val.beqList a b
  | .obj a, .obj b => Val.beqFields a b
  | _, _ => false

/-- Boolean equality on lists of `Val`. -/
def Val.beqList : List Val → List Val → Bool
  | [], [] => true
  | a :: as, b :: bs => Val.beq a b && Val.beqList as bs
  | _, _ => false

/-- Boolean equality on object field lists. -/
def Val.beqFields : List (String × Val) → List (String × Val) → Bool
  | [], [] => true
  | (ka, va) :: as, (kb, vb) :: bs => ka == kb && Val.beq va vb && Val.beqFields as bs
  | _, _ => false

end

mutual

theorem Val.beq_iff : ∀ a b : Val, Val.beq a b = true ↔ a = b
  | .null, .null => by simp [Val.beq]
  | .null, .bool _ => by simp [Val.beq]
  | .null, .num _ => by simp [Val.beq]
  | .null, .str _ => by simp [Val.beq]
  | .null, .arr _ => by simp [Val.beq]
  | .null, .obj _ => by simp [Val.beq]
  | .bool _, .null => by simp [Val.beq]
  | .bool _, .bool _ => by simp [Val.beq]
  | .bool _, .num _ => by simp [Val.beq]
  | .bool _, .str _ => by simp [Val.beq]
  | .bool _, .arr _ => by simp [Val.beq]
  | .bool _, .obj _ => by simp [Val.beq]
  | .num _, .null => by simp [Val.beq]
  | .num _, .bool _ => by simp [Val.beq]
  | .num _, .num _ => by simp [Val.beq]
  | .num _, .str _ => by simp [Val.beq]
  | .num _, .arr _ => by simp [Val.beq]
  | .num _, .obj _ => by simp [Val.beq]
  | .str _, .null => by simp [Val.beq]
  | .str _, .bool _ => by simp [Val.beq]
  | .str _, .num _ => by simp [Val.beq]
  | .str _, .str _ => by simp [Val.beq]
  | .str _, .arr _ => by simp [Val.beq]
  | .str _, .obj _ => by simp [Val.beq]
  | .arr _, .null => by simp [Val.beq]
  | .arr _, .bool _ => by simp [Val.beq]
  | .arr _, .num _ => by simp [Val.beq]
  | .arr _, .str _ => by simp [Val.beq]
  | .arr a, .arr b => by
      simp only [Val.beq, Val.arr.injEq]
      exact Val.beqList_iff a b
  | .arr _, .obj _ => by simp [Val.beq]
  | .obj _, .null => by simp [Val.beq]
  | .obj _, .bool _ => by simp [Val.beq]
  | .obj _, .num _ => by simp [Val.beq]
  | .obj _, .str _ => by simp [Val.beq]
  | .obj _, .arr _ => by simp [Val.beq]
  | .obj a, .obj b => by
      simp only [Val.beq, Val.obj.injEq]
      exact Val.beqFields_iff a b

theorem Val.beqList_iff : ∀ a b : List Val, Val.beqList a b = true ↔ a = b
  | [], [] => by simp [Val.beqList]
  | [], _ :: _ => by simp [Val.beqList]
  | _ :: _, [] => by simp [Val.beqList]
  | a :: as, b :: bs => by
      simp only [Val.beqList, Bool.and_eq_true, List.cons.injEq]
      exact and_congr (Val.beq_iff a b) (Val.beqList_iff as bs)

theorem Val.beqFields_iff : ∀ a b : List (String × Val), Val.beqFields a b = true ↔ a = b
  | [], [] => by simp [Val.beqFields]
  | [], _ :: _ => by simp [Val.beqFields]
  | _ :: _, [] => by simp [Val.beqFields]
  | (ka, va) :: as, (kb, vb) :: bs => by
      simp only [Val.beqFields, Bool.and_eq_true, List.cons.injEq, Prod.mk.injEq, beq_iff_eq]
      rw [Val.beq_iff va vb, Val.beqFields_iff as bs]

end

instance : DecidableEq Val := fun a b =>
  decidable_of_iff (Val.beq a b = true) (Val.beq_iff a b)

mutual

/-- Model of `JSON.stringify` on `Val` (string escaping elided: the model
never needs to parse these strings, only to compare them). -/
def Val.stringify : Val → String
  | .null => "null"
  | .bool true => "true"
  | .bool false => "false"
  | .num n => toString n
  | .str s => "\"" ++ s ++ "\""
  | .arr items => "[" ++ Val.stringifyList items ++ "]"
  | .obj fields => "\x7b" ++ Val.stringifyFields fields ++ "\x7d"

/-- Comma-joined renderings of array items. -/
def Val.stringifyList : List Val → String
  | [] => ""
  | [v] => v.stringify
  | v :: vs => v.stringify ++ "," ++ Val.stringifyList vs

/-- Comma-joined renderings of object fields. -/
def Val.stringifyFields : List (String × Val) → String
  | [] => ""
  | [(k, v)] => "\"" ++ k ++ "\":" ++ v.stringify
  | (k, v) :: fs => "\"" ++ k ++ "\":" ++ v.stringify ++ "," ++ Val.stringifyFields fs

end

/-- Model of the JS loose check `x == null`, which is true exactly for
`undefined` (here `none`) and `null` (here `some Val.null`). -/
def isNullish : Option Val → Bool
  | none => true
  | some .null => true
  | some _ => false

/-- Error data of `WorkflowError` (src/error.ts) merged with the error
object itself: each constructor is one `type` tag of `WorkflowErrorData`
together with the error `message`; `external` stands for any thrown value
that is not a `WorkflowError` (library exceptions, user throws). -/
inductive JsError where
  | operationFailed (message : String) (id : String) (error : JsError)
  | valueValidationFailed (message : String)
  | valueNotComputed (message : String)
  | unexpectedEmptyValue (message : String)
  | failedWorkflowAction (message : String)
  | failedOperationAction (message : String)
  | failedFunctionAction (message : String)
  | serializationFailed (message : String)
  | external (message : String)
deriving DecidableEq

deriving instance DecidableEq for Except

/-- A user-supplied callable `($, input) => Promise<output>`.  `run` is the
function's behaviour (it may throw); `src` models `func.toString()`, the
JavaScript source text that function hashing is computed from. -/
structure Callable where
  src : String
  run : Val → Option Val → Except JsError Val

/-- Model of `terser.minify_sync(... , {compress:false, mangle:false}).code`:
a deterministic normalizer of function source text.  Modelled as the
identity; the code only relies on it being a deterministic function of the
source text.  (The source throws when minification returns `undefined`;
that failure mode has no counterpart in the model.) -/
def minifySync (s : String) : String := s

/-- Model of `crypto.createHash("sha256").update(s).digest("hex")`: an
injective stand-in for SHA-256 (the identity on strings).  The code only
compares hashes for equality, and a collision-free hash is the intended
reading. -/
def sha256Hex (s : String) : String := s

/-- Port of `computeFunctionHash` (function module): minify the function
source, then hash the normalized text. -/
def computeFunctionHash (func : Callable) : String :=
  sha256Hex (minifySync func.src)

/-- Generic association list with JS-object semantics: string keys, first
occurrence wins on lookup, assignment replaces in place or appends, delete
removes the key.  Used to model JS objects holding lookups/registries. -/
def assocGet {α : Type} (entries : List (String × α)) (key : String) : Option α :=
  (entries.find? (fun p => p.1 = key)).map (fun p => p.2)

/-- Assignment `entries[key] = value` on a JS object: replaces the value in
place when the key exists, otherwise appends the binding. -/
def assocSet {α : Type} (entries : List (String × α)) (key : String) (value : α) :
    List (String × α) :=
  if (entries.find? (fun p => p.1 = key)).isSome then
    entries.map (fun p => if p.1 = key then (key, value) else p)
  else
    entries ++ [(key, value)]

/-- Deletion `delete entries[key]` on a JS object. -/
def assocDel {α : Type} (entries : List (String × α)) (key : String) :
    List (String × α) :=
  entries.filter (fun p => ¬ p.1 = key)

/-- Port of `FunctionRegistry` (function module): a map of function ids to
functions. -/
def FunctionRegistry : Type := List (String × Callable)

/-- Port of `OperationFunctionDataSchema`: the marshaled shape of an
`OperationFunction`, `{ id, hash }`. -/
structure OperationFunctionData where
  id : String
  hash : String
deriving DecidableEq

/-- Port of class `OperationFunction`: a function reference with a stable
`id`, the callable `fn`, and the content `hash` computed at construction. -/
structure OperationFunction where
  id : String
  fn : Callable
  hash : String

/-- Port of the `OperationFunction` constructor: stores the callable and
computes `hash` from it. -/
def OperationFunction.make (id : String) (func : Callable) : OperationFunction :=
  ⟨id, func, computeFunctionHash func⟩

/-- Port of `OperationFunction.unmarshal(data, registry)`.  The typebox
shape check `Value.Check(OperationFunctionDataSchema, data)` always passes
here because `data` is well-typed by construction; the remaining behaviour
is the registry lookup (a hard `SERIALIZATION_FAILED` when the id is
absent) followed by reconstruction, which recomputes the hash from the
registry's callable and ignores `data.hash`. -/
def OperationFunction.unmarshal (data : OperationFunctionData)
    (registry : FunctionRegistry) : Except JsError OperationFunction :=
  match assocGet registry data.id with
  | none => .error (.serializationFailed ("function not found in registry: " ++ data.id))
  | some func => .ok (OperationFunction.make data.id func)

/-- Port of `OperationFunction.marshal`. -/
def OperationFunction.marshal (f : OperationFunction) : OperationFunctionData :=
  ⟨f.id, f.hash⟩

/-- Port of `OperationFunction.invoke`. -/
def OperationFunction.invoke (f : OperationFunction) (ctx : Val) (input : Option Val) :
    Except JsError Val :=
  f.fn.run ctx input

/-- Marshaled cache entry of an `Operation`.  In the source `value` is the
string `base64(JSON.stringify(cachedValue))` (with `"{}"` substituted when
the cached value is nullish); per the conventions above the field holds the
decoded JSON value. -/
structure OperationCacheData where
  hash : String
  value : Val
deriving DecidableEq

/-- Port of `OperationDataSchema`: the marshaled shape of an `Operation`. -/
structure OperationData where
  id : String
  func : OperationFunctionData
  cache : Option OperationCacheData
deriving DecidableEq

/-- Cache entry of a live `Operation`: the input hash and the cached output
value. -/
structure OperationCache where
  hash : String
  value : Val
deriving DecidableEq

/-- Port of class `Operation` (src/operation.ts).  The `async-mutex` cache
lock has no counterpart: in this sequential model `eval` is atomic. -/
structure Operation where
  id : String
  func : OperationFunction
  cache : Option OperationCache

/-- Port of the `Operation` constructor: `func` is either an
`OperationFunction` (kept as-is) or a bare callable (wrapped with the
operation's own id). -/
def Operation.make (id : String) (func : OperationFunction ⊕ Callable)
    (cache : Option OperationCache) : Operation :=
  match func with
  | .inl f => ⟨id, f, cache⟩
  | .inr c => ⟨id, OperationFunction.make id c, cache⟩

/-- Port of `Operation.unmarshal(data, registry)`.  The typebox shape check
always passes on well-typed data; the function reference is restored
against the registry and the cache value is `JSON.parse` of the decoded
payload, which at the `Val` level is the stored value itself. -/
def Operation.unmarshal (data : OperationData) (registry : FunctionRegistry) :
    Except JsError Operation :=
  match OperationFunction.unmarshal data.func registry with
  | .error e => .error e
  | .ok func =>
    .ok ⟨data.id, func,
      data.cache.map (fun c => OperationCache.mk c.hash c.value)⟩

/-- Port of `Operation.marshal`.  A nullish cached value is replaced by the
empty object (`"{}"` in the source, the decoded `Val.obj []` here). -/
def Operation.marshal (op : Operation) : OperationData :=
  ⟨op.id, op.func.marshal,
    op.cache.map (fun c =>
      ⟨c.hash, if c.value = Val.null then Val.obj [] else c.value⟩)⟩

/-- Port of the private `Operation.computeHash`: nullish inputs hash as the
canonical string `"{}"`, everything else as `JSON.stringify(input)`. -/
def Operation.computeHash (input : Option Val) : String :=
  sha256Hex (match input with
    | none => "\x7b\x7d"
    | some .null => "\x7b\x7d"
    | some v => v.stringify)

/-- Port of the `Operation.done` getter: cache presence. -/
def Operation.done (op : Operation) : Bool :=
  op.cache.isSome

/-- Port of `Operation.clear`: drops the cache unconditionally. -/
def Operation.clear (op : Operation) : Operation :=
  ⟨op.id, op.func, none⟩

/-- Port of `Operation.test`: whether the cache (if any) matches the
input's hash; never mutates. -/
def Operation.test (op : Operation) (ctx : Val) (input : Option Val) : Bool :=
  match op.cache with
  | some c => c.hash = Operation.computeHash input
  | none => false

/-- Port of `Operation.eval`.  Returns the output value, the updated
operation (the source mutates `this.cache` in place), and — as
instrumentation for the specification — whether the underlying callable
was invoked.  On a cache hit the cached value is returned and the callable
is not invoked; otherwise the callable runs, its failure propagates
unchanged, and on success the cache is overwritten with the new
`{ inputHash, value }` pair. -/
def Operation.eval (op : Operation) (ctx : Val) (input : Option Val) :
    Except JsError (Val × Operation × Bool) :=
  let inputHash := Operation.computeHash input
  match op.cache with
  | some c =>
    if c.hash = inputHash then
      .ok (c.value, op, false)
    else
      match op.func.invoke ctx input with
      | .error e => .error e
      | .ok v => .ok (v, ⟨op.id, op.func, some ⟨inputHash, v⟩⟩, true)
  | none =>
    match op.func.invoke ctx input with
    | .error e => .error e
    | .ok v => .ok (v, ⟨op.id, op.func, some ⟨inputHash, v⟩⟩, true)

/-- Port of the `Operation.value` getter: the cached value, or a
`VALUE_NOT_COMPUTED` failure when no cache exists. -/
def Operation.value (op : Operation) : Except JsError Val :=
  match op.cache with
  | some c => .ok c.value
  | none => .error (.valueNotComputed "operation value has not been computed")

/-! ### Claim C1 — Operation eval caching -/

/-- Concrete operation for the C1 counterexample: its cache already matches
the hash of input `5`, as permitted by the `Operation` constructor's
optional cache argument. -/
def c1CachedOp : Operation :=
  Operation.make "op"
    (.inr ⟨"($, input) => input * 2", fun _ _ => .ok (Val.num 10)⟩)
    (some ⟨Operation.computeHash (some (Val.num 5)), Val.num 99⟩)

/-- C1 (counterexample): the claim quantifies over every Operation, but for
an Operation whose cache already matches the input hash, calling `eval`
twice with the same input invokes the underlying callable zero times, not
exactly once, and the first call does not store a new cache entry: both
calls return the cached value with the invoked-flag `false`. -/
theorem c1_eval_twice_can_invoke_zero_times :
    Operation.eval c1CachedOp Val.null (some (Val.num 5)) =
      .ok (Val.num 99, c1CachedOp, false)
    ∧ Operation.eval c1CachedOp Val.null (some (Val.num 5)) =
      .ok (Val.num 99, c1CachedOp, false) := by
  constructor <;> rfl

/-- C1 (amended): for every Operation whose current cache (if any) does not
match input `i`'s hash and whose callable succeeds on `i`, calling `eval`
twice in sequence with the same context and input invokes the callable
exactly once: the first call invokes it (invoked-flag `true`) and stores
`{ inputHash, value }`, the second call returns the cached value without
invoking (invoked-flag `false`), and `test i` returns true after the first
call. -/
theorem c1_eval_twice_invokes_once
    (op : Operation) (ctx : Val) (input : Option Val) (v : Val)
    (hmiss : ∀ c, op.cache = some c → ¬ c.hash = Operation.computeHash input)
    (hok : op.func.invoke ctx input = .ok v) :
    Operation.eval op ctx input =
      .ok (v, ⟨op.id, op.func, some ⟨Operation.computeHash input, v⟩⟩, true)
    ∧ Operation.eval ⟨op.id, op.func, some ⟨Operation.computeHash input, v⟩⟩ ctx input =
      .ok (v, ⟨op.id, op.func, some ⟨Operation.computeHash input, v⟩⟩, false)
    ∧ Operation.test ⟨op.id, op.func, some ⟨Operation.computeHash input, v⟩⟩ ctx input = true := by
  refine ⟨?_, ?_, ?_⟩
  · match hc : op.cache with
    | some c =>
      simp only [Operation.eval, hc]
      rw [if_neg (hmiss c hc), hok]
    | none =>
      simp only [Operation.eval, hc]
      rw [hok]
  · simp [Operation.eval]
  · simp [Operation.test]

/-- Concrete fresh operation for the C1 witness. -/
def c1FreshOp : Operation :=
  Operation.make "op" (.inr ⟨"($, input) => input * 2", fun _ _ => .ok (Val.num 10)⟩) none

/-- Concrete cached state of `c1FreshOp` after the first `eval`. -/
def c1FreshOpDone : Operation :=
  ⟨c1FreshOp.id, c1FreshOp.func, some ⟨Operation.computeHash (some (Val.num 5)), Val.num 10⟩⟩

/-- Witness for `c1_eval_twice_invokes_once` at a concrete fresh
operation and input. -/
theorem c1_eval_twice_invokes_once_witness :
    Operation.eval c1FreshOp Val.null (some (Val.num 5)) =
      .ok (Val.num 10, c1FreshOpDone, true)
    ∧ Operation.eval c1FreshOpDone Val.null (some (Val.num 5)) =
      .ok (Val.num 10, c1FreshOpDone, false)
    ∧ Operation.test c1FreshOpDone Val.null (some (Val.num 5)) = true :=
  c1_eval_twice_invokes_once c1FreshOp Val.null (some (Val.num 5)) (Val.num 10)
    (fun _ h => Option.noConfusion h) rfl

/-! ### Claim C8 — function-reference snapshot restoration -/

/-- C8: for every shape-valid function-reference snapshot and registry,
`OperationFunction.unmarshal` fails with `SerializationFailed` exactly when
the registry lacks the snapshot's id; on success it rebuilds the reference
from the registry's callable with a freshly recomputed hash, and the
result never depends on the hash field stored in the snapshot. -/
theorem c8_unmarshal_registry_spec
    (data : OperationFunctionData) (registry : FunctionRegistry) :
    (assocGet registry data.id = none ↔
      OperationFunction.unmarshal data registry =
        .error (.serializationFailed ("function not found in registry: " ++ data.id)))
    ∧ (∀ func, assocGet registry data.id = some func →
        OperationFunction.unmarshal data registry =
          .ok ⟨data.id, func, computeFunctionHash func⟩)
    ∧ (∀ hashField, OperationFunction.unmarshal ⟨data.id, hashField⟩ registry =
        OperationFunction.unmarshal data registry) := by
  refine ⟨?_, ?_, ?_⟩
  · unfold OperationFunction.unmarshal
    match h : assocGet registry data.id with
    | none => simp
    | some f => simp
  · intro func hfunc
    unfold OperationFunction.unmarshal
    rw [hfunc]
    rfl
  · intro hashField
    unfold OperationFunction.unmarshal
    rfl

/-- Concrete callable for the C8 witness. -/
def c8Fn : Callable := ⟨"($, input) => input", fun _ input => .ok (input.getD Val.null)⟩

/-- Concrete registry for the C8 witness, holding only id `"f1"`. -/
def c8Registry : FunctionRegistry := [("f1", c8Fn)]

/-- Witness for `c8_unmarshal_registry_spec`: with a registry holding
`"f1"`, restoring a snapshot with a stale hash field succeeds and
recomputes the hash; restoring an absent id `"f9"` is exactly the
`SerializationFailed` failure. -/
theorem c8_unmarshal_registry_spec_witness :
    OperationFunction.unmarshal ⟨"f1", "stale-hash"⟩ c8Registry =
      .ok ⟨"f1", c8Fn, computeFunctionHash c8Fn⟩
    ∧ (assocGet c8Registry "f9" = none ↔
        OperationFunction.unmarshal ⟨"f9", ""⟩ c8Registry =
          .error (.serializationFailed ("function not found in registry: " ++ "f9"))) :=
  ⟨(c8_unmarshal_registry_spec ⟨"f1", "stale-hash"⟩ c8Registry).2.1 c8Fn rfl,
   (c8_unmarshal_registry_spec ⟨"f9", ""⟩ c8Registry).1⟩

/-! ### Graph engine

Model of the consumed `@dagrejs/graphlib` capability, specified at its
interface boundary: node/edge storage keyed by string id, sources/sinks,
in-edges, topological sort with cycle detection, preorder traversal from a
start set.  Nodes and edges are kept in insertion order.  The topological
sort is implemented Kahn-style (repeatedly emitting a node with no
remaining in-edge); the library promises only *a* topological order, which
is all the workflow code relies on. -/

/-- Model of a graphlib `Graph`: node ids and directed edges `(v, w)`, in
insertion order. -/
structure Graph where
  nodes : List String
  edges : List (String × String)
deriving DecidableEq

/-- Membership test `g.hasNode(v)`. -/
def Graph.hasNode (g : Graph) (v : String) : Bool :=
  g.nodes.contains v

/-- Port of `g.setNode(v)`: adds the node if absent. -/
def Graph.setNode (g : Graph) (v : String) : Graph :=
  if g.nodes.contains v then g else ⟨g.nodes ++ [v], g.edges⟩

/-- Port of `g.setEdge(u, v)`: creates missing endpoints, then adds the
edge if absent. -/
def Graph.setEdge (g : Graph) (u v : String) : Graph :=
  let g1 := (g.setNode u).setNode v
  if g1.edges.contains (u, v) then g1 else ⟨g1.nodes, g1.edges ++ [(u, v)]⟩

/-- Port of `g.inEdges(v)`: `undefined` (here `none`) for a node not in the
graph, otherwise the edges whose target is `v`. -/
def Graph.inEdges (g : Graph) (v : String) : Option (List (String × String)) :=
  if g.nodes.contains v then some (g.edges.filter (fun e => e.2 = v)) else none

/-- Successors of a node: targets of its outgoing edges. -/
def Graph.successors (g : Graph) (v : String) : List String :=
  (g.edges.filter (fun e => e.1 = v)).map (fun e => e.2)

/-- Port of `g.sources()`: nodes with no incoming edge. -/
def Graph.sources (g : Graph) : List String :=
  g.nodes.filter (fun v => ¬ g.edges.any (fun e => e.2 = v))

/-- Port of `g.sinks()`: nodes with no outgoing edge. -/
def Graph.sinks (g : Graph) : List String :=
  g.nodes.filter (fun v => ¬ g.edges.any (fun e => e.1 = v))

/-- Kahn's algorithm on a remaining-node worklist: repeatedly emit the
first remaining node with no in-edge from a remaining node.  Returns
`none` (a cycle) when stuck. -/
def kahnAux (edges : List (String × String)) : Nat → List String → Option (List String)
  | _, [] => some []
  | 0, _ :: _ => none
  | fuel + 1, remaining =>
    match remaining.find? (fun v => edges.all (fun e => !(e.2 = v && remaining.contains e.1))) with
    | none => none
    | some v => (kahnAux edges fuel (remaining.erase v)).map (fun l => v :: l)

/-- Model of `graphlib.alg.topsort(g)`: some topological order of the
whole node set, or `none` when the graph is cyclic (the library throws a
`CycleException`). -/
def Graph.topsort? (g : Graph) : Option (List String) :=
  kahnAux g.edges g.nodes.length g.nodes

/-- Model of `graphlib.alg.isAcyclic(g)`: whether a topological sort
exists (the library implements this as topsort-and-catch). -/
def Graph.isAcyclic (g : Graph) : Bool :=
  g.topsort?.isSome

/-- Well-formedness of a graph as graphlib maintains it: every edge
endpoint is a node (graphlib's `setEdge` creates missing endpoints). -/
def Graph.wf (g : Graph) : Bool :=
  g.edges.all (fun e => g.nodes.contains e.1 && g.nodes.contains e.2)

/-- Reachability along edges (reflexive-transitive, edges appended at the
end of the path).  This is the specification-level notion of "downstream
of"; it is defined independently of any traversal code. -/
inductive Graph.Reaches (g : Graph) : String → String → Prop
  | refl (a : String) : Graph.Reaches g a a
  | snoc {a b c : String} : Graph.Reaches g a b → (b, c) ∈ g.edges → Graph.Reaches g a c

/-- Strict (at least one edge) reachability, the specification-level
notion of "a proper ancestor of": a nonempty edge path from `a` to `b`. -/
inductive Graph.ReachesPlus (g : Graph) : String → String → Prop
  | single {a b : String} : (a, b) ∈ g.edges → Graph.ReachesPlus g a b
  | snoc {a b c : String} : Graph.ReachesPlus g a b → (b, c) ∈ g.edges → Graph.ReachesPlus g a c

/-- Add to `seen`, in order, every element of `items` not already seen. -/
def addNew (seen : List String) (items : List String) : List String :=
  items.foldl (fun acc x => if acc.contains x then acc else acc ++ [x]) seen

/-- One closure step followed by recursion: add all successors of the
current set, stopping at a fixpoint or when the fuel runs out. -/
def reachIter (g : Graph) : Nat → List String → List String
  | 0, seen => seen
  | fuel + 1, seen =>
    let seen' := addNew seen (seen.flatMap (fun v => g.successors v))
    if seen' = seen then seen else reachIter g fuel seen'

/-- Model of `graphlib.alg.preorder(g, roots)`: the set of nodes reachable
from the roots (the traversal order is irrelevant to the workflow code,
which only uses membership).  graphlib's dfs throws when a root is not in
the graph; reachability is computed by iterating the successor closure to
a fixpoint, which the fuel `|nodes| + |edges| + 1` always suffices for. -/
def Graph.preorder (g : Graph) (roots : List String) : Except JsError (List String) :=
  if roots.all (fun v => g.hasNode v) then
    .ok (reachIter g (g.nodes.length + g.edges.length + 1) (addNew [] roots))
  else
    .error (.external "graph does not have node")


/-! ### Graph lemmas -/

theorem Graph.mem_successors {g : Graph} {v y : String} :
    y ∈ g.successors v ↔ (v, y) ∈ g.edges := by
  unfold Graph.successors
  simp only [List.mem_map, List.mem_filter, decide_eq_true_eq]
  constructor
  · rintro ⟨e, ⟨he, h1⟩, h2⟩
    cases e
    subst h1
    subst h2
    exact he
  · intro h
    exact ⟨(v, y), ⟨h, rfl⟩, rfl⟩

theorem kahnAux_perm {edges : List (String × String)} :
    ∀ (fuel : Nat) (remaining l : List String),
      kahnAux edges fuel remaining = some l → remaining.Perm l := by
  intro fuel
  induction fuel with
  | zero =>
    intro remaining l h
    match remaining with
    | [] => simp only [kahnAux, Option.some.injEq] at h; subst h; exact List.Perm.refl _
    | _ :: _ =>
      simp only [kahnAux] at h
      exact Option.noConfusion h
  | succ fuel ih =>
    intro remaining l h
    match remaining with
    | [] => simp only [kahnAux, Option.some.injEq] at h; subst h; exact List.Perm.refl _
    | r :: rs =>
      simp only [kahnAux] at h
      match hf : (r :: rs).find? (fun v =>
          edges.all (fun e => !(e.2 = v && (r :: rs).contains e.1))) with
      | none =>
        rw [hf] at h
        have hcontra : (none : Option (List String)) = some l := h
        exact Option.noConfusion hcontra
      | some v =>
        rw [hf] at h
        have h' : Option.map (fun l => v :: l)
            (kahnAux edges fuel ((r :: rs).erase v)) = some l := h
        rw [Option.map_eq_some'] at h'
        obtain ⟨l', hk, hl⟩ := h'
        subst hl
        have hv : v ∈ r :: rs := List.mem_of_find?_eq_some hf
        exact (List.perm_cons_erase hv).trans (List.Perm.cons v (ih _ _ hk))

theorem kahn_head_no_inedge {edges : List (String × String)} {remaining : List String}
    {v : String}
    (hf : remaining.find? (fun v =>
      edges.all (fun e => !(e.2 = v && remaining.contains e.1))) = some v) :
    ∀ b ∈ remaining, (b, v) ∉ edges := by
  intro b hb he
  have hp := List.find?_some hf
  rw [List.all_eq_true] at hp
  have h2 := hp (b, v) he
  simp [List.contains, List.elem_eq_mem, hb] at h2

theorem kahnAux_pairwise {edges : List (String × String)} :
    ∀ (fuel : Nat) (remaining l : List String),
      kahnAux edges fuel remaining = some l →
      l.Pairwise (fun a b => (b, a) ∉ edges) := by
  intro fuel
  induction fuel with
  | zero =>
    intro remaining l h
    match remaining with
    | [] => simp only [kahnAux, Option.some.injEq] at h; subst h; exact List.Pairwise.nil
    | _ :: _ =>
      simp only [kahnAux] at h
      exact Option.noConfusion h
  | succ fuel ih =>
    intro remaining l h
    match remaining with
    | [] => simp only [kahnAux, Option.some.injEq] at h; subst h; exact List.Pairwise.nil
    | r :: rs =>
      simp only [kahnAux] at h
      match hf : (r :: rs).find? (fun v =>
          edges.all (fun e => !(e.2 = v && (r :: rs).contains e.1))) with
      | none =>
        rw [hf] at h
        have hcontra : (none : Option (List String)) = some l := h
        exact Option.noConfusion hcontra
      | some v =>
        rw [hf] at h
        have h' : Option.map (fun l => v :: l)
            (kahnAux edges fuel ((r :: rs).erase v)) = some l := h
        rw [Option.map_eq_some'] at h'
        obtain ⟨l', hk, hl⟩ := h'
        subst hl
        refine List.Pairwise.cons ?_ (ih _ _ hk)
        intro b hb
        have hbe : b ∈ (r :: rs).erase v := ((kahnAux_perm fuel _ _ hk).mem_iff).mpr hb
        have hbr : b ∈ r :: rs := List.mem_of_mem_erase hbe
        exact kahn_head_no_inedge hf b hbr

theorem kahnAux_no_self {edges : List (String × String)} :
    ∀ (fuel : Nat) (remaining l : List String),
      kahnAux edges fuel remaining = some l →
      ∀ v ∈ l, (v, v) ∉ edges := by
  intro fuel
  induction fuel with
  | zero =>
    intro remaining l h
    match remaining with
    | [] =>
      simp only [kahnAux, Option.some.injEq] at h
      subst h
      intro v hv
      cases hv
    | _ :: _ =>
      simp only [kahnAux] at h
      exact Option.noConfusion h
  | succ fuel ih =>
    intro remaining l h
    match remaining with
    | [] =>
      simp only [kahnAux, Option.some.injEq] at h
      subst h
      intro v hv
      cases hv
    | r :: rs =>
      simp only [kahnAux] at h
      match hf : (r :: rs).find? (fun v =>
          edges.all (fun e => !(e.2 = v && (r :: rs).contains e.1))) with
      | none =>
        rw [hf] at h
        have hcontra : (none : Option (List String)) = some l := h
        exact Option.noConfusion hcontra
      | some v =>
        rw [hf] at h
        have h' : Option.map (fun l => v :: l)
            (kahnAux edges fuel ((r :: rs).erase v)) = some l := h
        rw [Option.map_eq_some'] at h'
        obtain ⟨l', hk, hl⟩ := h'
        subst hl
        intro w hw
        cases hw with
        | head =>
          exact kahn_head_no_inedge hf v (List.mem_of_find?_eq_some hf)
        | tail _ hw' =>
          exact ih _ _ hk w hw'

theorem Graph.topsort_perm {g : Graph} {l : List String}
    (h : g.topsort? = some l) : g.nodes.Perm l :=
  kahnAux_perm _ _ _ h

theorem Graph.topsort_pairwise {g : Graph} {l : List String}
    (h : g.topsort? = some l) : l.Pairwise (fun a b => (b, a) ∉ g.edges) :=
  kahnAux_pairwise _ _ _ h

theorem Graph.topsort_no_self {g : Graph} {l : List String}
    (h : g.topsort? = some l) : ∀ v ∈ l, (v, v) ∉ g.edges :=
  kahnAux_no_self _ _ _ h

theorem Graph.topsort_edge_indexOf {g : Graph} {l : List String}
    (h : g.topsort? = some l) {u v : String}
    (he : (u, v) ∈ g.edges) (hu : u ∈ l) (hv : v ∈ l) :
    l.indexOf u < l.indexOf v := by
  have hiu : l.indexOf u < l.length := List.indexOf_lt_length.mpr hu
  have hiv : l.indexOf v < l.length := List.indexOf_lt_length.mpr hv
  rcases Nat.lt_trichotomy (l.indexOf u) (l.indexOf v) with hlt | heq | hgt
  · exact hlt
  · exfalso
    have huv : u = v := (List.indexOf_inj hu hv).mp heq
    subst huv
    exact (Graph.topsort_no_self h u hu) he
  · exfalso
    have hp := List.pairwise_iff_getElem.mp (Graph.topsort_pairwise h)
    have := hp (l.indexOf v) (l.indexOf u) hiv hiu hgt
    rw [List.getElem_indexOf hiv, List.getElem_indexOf hiu] at this
    exact this he

theorem Graph.wf_mem_edges {g : Graph} (hwf : g.wf = true) {u v : String}
    (he : (u, v) ∈ g.edges) : u ∈ g.nodes ∧ v ∈ g.nodes := by
  unfold Graph.wf at hwf
  rw [List.all_eq_true] at hwf
  have h2 := hwf (u, v) he
  simp only [Bool.and_eq_true, List.contains, List.elem_eq_mem, decide_eq_true_eq] at h2
  exact h2

theorem Graph.topsort_RP_indexOf {g : Graph} {l : List String}
    (h : g.topsort? = some l) (hwf : g.wf = true) {u v : String}
    (hr : g.ReachesPlus u v) : l.indexOf u < l.indexOf v := by
  induction hr with
  | single he =>
    have hm := Graph.wf_mem_edges hwf he
    exact Graph.topsort_edge_indexOf h he
      ((Graph.topsort_perm h).mem_iff.mp hm.1) ((Graph.topsort_perm h).mem_iff.mp hm.2)
  | snoc _ he ih =>
    have hm := Graph.wf_mem_edges hwf he
    exact ih.trans (Graph.topsort_edge_indexOf h he
      ((Graph.topsort_perm h).mem_iff.mp hm.1) ((Graph.topsort_perm h).mem_iff.mp hm.2))

theorem Graph.topsort_no_RP_self {g : Graph} {l : List String}
    (h : g.topsort? = some l) (hwf : g.wf = true) {u : String}
    (hr : g.ReachesPlus u u) : False :=
  Nat.lt_irrefl _ (Graph.topsort_RP_indexOf h hwf hr)

theorem Graph.reaches_iff {g : Graph} {a b : String} :
    g.Reaches a b ↔ a = b ∨ g.ReachesPlus a b := by
  constructor
  · intro h
    induction h with
    | refl => exact Or.inl rfl
    | snoc _ he ih =>
      rcases ih with rfl | hp
      · exact Or.inr (Graph.ReachesPlus.single he)
      · exact Or.inr (Graph.ReachesPlus.snoc hp he)
  · rintro (rfl | hp)
    · exact Graph.Reaches.refl _
    · induction hp with
      | single he => exact Graph.Reaches.snoc (Graph.Reaches.refl _) he
      | snoc _ he ih => exact Graph.Reaches.snoc ih he

theorem addNew_mem {items seen : List String} {x : String} :
    x ∈ addNew seen items ↔ x ∈ seen ∨ x ∈ items := by
  induction items generalizing seen with
  | nil => simp [addNew]
  | cons i is ih =>
    unfold addNew
    rw [List.foldl_cons]
    by_cases hc : seen.contains i
    · rw [if_pos hc]
      have : x ∈ addNew seen is ↔ x ∈ seen ∨ x ∈ is := ih
      unfold addNew at this
      rw [this]
      have him : i ∈ seen := by
        rw [List.contains, List.elem_eq_mem, decide_eq_true_eq] at hc
        exact hc
      constructor
      · rintro (hx | hx)
        · exact Or.inl hx
        · exact Or.inr (List.mem_cons_of_mem i hx)
      · rintro (hx | hx)
        · exact Or.inl hx
        · rcases List.mem_cons.mp hx with rfl | hx
          · exact Or.inl him
          · exact Or.inr hx
    · rw [if_neg hc]
      have : x ∈ addNew (seen ++ [i]) is ↔ x ∈ seen ++ [i] ∨ x ∈ is := ih
      unfold addNew at this
      rw [this]
      simp only [List.mem_append, List.mem_singleton, List.mem_cons]
      tauto

theorem addNew_extends (items seen : List String) :
    ∃ t, addNew seen items = seen ++ t := by
  induction items generalizing seen with
  | nil => exact ⟨[], by simp [addNew]⟩
  | cons i is ih =>
    unfold addNew
    rw [List.foldl_cons]
    by_cases hc : seen.contains i
    · rw [if_pos hc]
      exact ih seen
    · rw [if_neg hc]
      obtain ⟨t, ht⟩ := ih (seen ++ [i])
      refine ⟨i :: t, ?_⟩
      have ht' : addNew (seen ++ [i]) is = seen ++ [i] ++ t := ht
      unfold addNew at ht'
      rw [ht', List.append_assoc]
      rfl

theorem addNew_nodup {items seen : List String} (h : seen.Nodup) :
    (addNew seen items).Nodup := by
  induction items generalizing seen with
  | nil => simpa [addNew] using h
  | cons i is ih =>
    unfold addNew
    rw [List.foldl_cons]
    by_cases hc : seen.contains i
    · rw [if_pos hc]
      exact ih h
    · rw [if_neg hc]
      refine ih ?_
      have him : i ∉ seen := by
        rw [List.contains, List.elem_eq_mem] at hc
        simpa using hc
      simp [List.nodup_append, h, him]

theorem reachIter_subset (g : Graph) :
    ∀ (fuel : Nat) (seen : List String), ∀ x ∈ seen, x ∈ reachIter g fuel seen := by
  intro fuel
  induction fuel with
  | zero => intro seen x hx; simpa [reachIter] using hx
  | succ fuel ih =>
    intro seen x hx
    unfold reachIter
    by_cases h : addNew seen (seen.flatMap (fun v => g.successors v)) = seen
    · rw [if_pos h]
      exact hx
    · rw [if_neg h]
      exact ih _ x (addNew_mem.mpr (Or.inl hx))

theorem reachIter_sound (g : Graph) (roots : List String) :
    ∀ (fuel : Nat) (seen : List String),
      (∀ y ∈ seen, ∃ r ∈ roots, g.Reaches r y) →
      ∀ x ∈ reachIter g fuel seen, ∃ r ∈ roots, g.Reaches r x := by
  intro fuel
  induction fuel with
  | zero =>
    intro seen hseed x hx
    exact hseed x (by simpa [reachIter] using hx)
  | succ fuel ih =>
    intro seen hseed x hx
    unfold reachIter at hx
    by_cases h : addNew seen (seen.flatMap (fun v => g.successors v)) = seen
    · rw [if_pos h] at hx
      exact hseed x hx
    · rw [if_neg h] at hx
      refine ih _ ?_ x hx
      intro y hy
      rcases addNew_mem.mp hy with hy | hy
      · exact hseed y hy
      · rcases List.mem_flatMap.mp hy with ⟨v, hv, hyv⟩
        rcases hseed v hv with ⟨r, hr, hreach⟩
        exact ⟨r, hr, Graph.Reaches.snoc hreach (Graph.mem_successors.mp hyv)⟩

theorem nodup_subset_length {s pool : List String} (hn : s.Nodup)
    (hs : ∀ x ∈ s, x ∈ pool) : s.length ≤ pool.length := by
  have h1 : s.toFinset.card = s.length := List.toFinset_card_of_nodup hn
  have h2 : s.toFinset ⊆ pool.toFinset := by
    intro x hx
    rw [List.mem_toFinset] at hx ⊢
    exact hs x hx
  calc s.length = s.toFinset.card := h1.symm
    _ ≤ pool.toFinset.card := Finset.card_le_card h2
    _ ≤ pool.length := List.toFinset_card_le pool

theorem reachIter_closed (g : Graph) (pool : List String)
    (hedge : ∀ e ∈ g.edges, e.2 ∈ pool) :
    ∀ (fuel : Nat) (seen : List String), seen.Nodup →
      (∀ x ∈ seen, x ∈ pool) →
      pool.length < fuel + seen.length →
      ∀ v ∈ reachIter g fuel seen, ∀ y ∈ g.successors v, y ∈ reachIter g fuel seen := by
  intro fuel
  induction fuel with
  | zero =>
    intro seen hn hp hcard
    exfalso
    have := nodup_subset_length hn hp
    omega
  | succ fuel ih =>
    intro seen hn hp hcard
    unfold reachIter
    by_cases h : addNew seen (seen.flatMap (fun v => g.successors v)) = seen
    · rw [if_pos h]
      intro v hv y hy
      rw [← h]
      refine addNew_mem.mpr (Or.inr ?_)
      exact List.mem_flatMap.mpr ⟨v, hv, hy⟩
    · rw [if_neg h]
      have hn' : (addNew seen (seen.flatMap (fun v => g.successors v))).Nodup :=
        addNew_nodup hn
      have hp' : ∀ x ∈ addNew seen (seen.flatMap (fun v => g.successors v)), x ∈ pool := by
        intro x hx
        rcases addNew_mem.mp hx with hx | hx
        · exact hp x hx
        · rcases List.mem_flatMap.mp hx with ⟨v, _, hyv⟩
          exact hedge _ (Graph.mem_successors.mp hyv)
      have hlen : seen.length + 1 ≤
          (addNew seen (seen.flatMap (fun v => g.successors v))).length := by
        obtain ⟨t, ht⟩ := addNew_extends (seen.flatMap (fun v => g.successors v)) seen
        match t with
        | [] => exfalso; rw [List.append_nil] at ht; exact h ht
        | _ :: _ =>
          rw [ht, List.length_append]
          simp
      exact ih _ hn' hp' (by omega)

theorem closed_reaches {g : Graph} {s : List String}
    (hclosed : ∀ v ∈ s, ∀ y ∈ g.successors v, y ∈ s) {r x : String}
    (hr : r ∈ s) (hreach : g.Reaches r x) : x ∈ s := by
  induction hreach with
  | refl => exact hr
  | snoc _ he ih =>
    exact hclosed _ ih _ (Graph.mem_successors.mpr he)

theorem Graph.preorder_mem {g : Graph} {roots l : List String}
    (h : g.preorder roots = .ok l) :
    ∀ x, x ∈ l ↔ ∃ r ∈ roots, g.Reaches r x := by
  unfold Graph.preorder at h
  by_cases hall : roots.all (fun v => g.hasNode v) = true
  · rw [if_pos hall] at h
    simp only [Except.ok.injEq] at h
    subst h
    intro x
    constructor
    · intro hx
      refine reachIter_sound g roots _ _ ?_ x hx
      intro y hy
      rcases addNew_mem.mp hy with hy | hy
      · cases hy
      · exact ⟨y, hy, Graph.Reaches.refl y⟩
    · rintro ⟨r, hr, hreach⟩
      have hseed : r ∈ addNew [] roots := addNew_mem.mpr (Or.inr hr)
      have hrl : r ∈ reachIter g (g.nodes.length + g.edges.length + 1) (addNew [] roots) :=
        reachIter_subset g _ _ r hseed
      refine closed_reaches ?_ hrl hreach
      refine reachIter_closed g (addNew [] roots ++ g.edges.map (fun e => e.2)) ?_ _ _
        (addNew_nodup List.nodup_nil) ?_ ?_
      · intro e he
        exact List.mem_append_right _ (List.mem_map.mpr ⟨e, he, rfl⟩)
      · intro x hx
        exact List.mem_append_left _ hx
      · rw [List.length_append, List.length_map]
        omega
  · rw [if_neg hall] at h
    exact Except.noConfusion h

/-! ### Workflow (src/workflow.ts) -/

/-- Port of `nonEmpty`: unwraps a nullable value or throws
`UNEXPECTED_EMPTY_VALUE`.  The source's `name` parameter defaults to
`"unspecified"`; callers in workflow.ts never pass it. -/
def nonEmpty {α : Type} (value : Option α) (name : String) : Except JsError α :=
  match value with
  | none => .error (.unexpectedEmptyValue ("unexpected empty value: " ++ name))
  | some v => .ok v

/-- Port of `uniq`: keeps the elements whose index equals the index of
their first occurrence (`array.filter((item, index) => array.indexOf(item)
=== index)`). -/
def uniq (l : List String) : List String :=
  (l.enum.filter (fun p => l.indexOf p.2 = p.1)).map (fun p => p.2)

/-- The `operations` field of a `Workflow`: an order-preserving array and
an id-keyed lookup object.  In the source both hold references to the same
`Operation` objects; mutation of a shared object is modelled by updating
the entry in both components (`updateOp`, `clearById`), which coincides
with the source whenever operation ids are unique — the situation `validate`
enforces and every claim is about. -/
structure OpsCollection where
  value : List Operation
  lookup : List (String × Operation)

/-- Lookup construction in the `Workflow` constructor:
`operations.reduce((lookup, op) => { lookup[op.id] = op; return lookup }, {})`. -/
def buildLookup (operations : List Operation) : List (String × Operation) :=
  operations.foldl (fun lk op => assocSet lk op.id op) []

/-- Port of class `Workflow`: the graph plus the operation collection. -/
structure Workflow where
  graph : Graph
  operations : OpsCollection

/-- Port of the `Workflow` constructor. -/
def Workflow.make (graph : Graph) (operations : List Operation) : Workflow :=
  ⟨graph, ⟨operations, buildLookup operations⟩⟩

/-- Port of `WorkflowDataSchema`.  In the source `graph` is
`base64(JSON.stringify(graphlib.json.write(g)))`; `graphlib.json.read` is
its inverse, so per the conventions above the field holds the decoded
graph. -/
structure WorkflowData where
  graph : Graph
  operations : List OperationData
deriving DecidableEq

/-- Port of `Workflow.marshal`. -/
def Workflow.marshal (w : Workflow) : WorkflowData :=
  ⟨w.graph, w.operations.value.map Operation.marshal⟩

/-- Unmarshal each operation snapshot in order against the shared
registry, propagating the first failure
(`data.operations.map((o) => Operation.unmarshal(o, registry))`). -/
def unmarshalOps (registry : FunctionRegistry) :
    List OperationData → Except JsError (List Operation)
  | [] => .ok []
  | d :: rest =>
    match Operation.unmarshal d registry with
    | .error e => .error e
    | .ok op =>
      match unmarshalOps registry rest with
      | .error e => .error e
      | .ok ops => .ok (op :: ops)

/-- Port of `Workflow.unmarshal` (the typebox shape check always passes on
well-typed data). -/
def Workflow.unmarshal (data : WorkflowData) (registry : FunctionRegistry) :
    Except JsError Workflow :=
  match unmarshalOps registry data.operations with
  | .error e => .error e
  | .ok ops => .ok (Workflow.make data.graph ops)

/-- Port of the `Workflow.registry` getter: `{ [op.id]: op.func.fn }` built
over the operation array. -/
def Workflow.registry (w : Workflow) : FunctionRegistry :=
  w.operations.value.foldl (fun acc op => assocSet acc op.id op.func.fn) []

/-- Port of `Workflow.clone`: marshal, then unmarshal through the
workflow's own registry. -/
def Workflow.clone (w : Workflow) : Except JsError Workflow :=
  Workflow.unmarshal w.marshal w.registry

/-- Result shape of `Workflow.validate`: `{ value, message? }`. -/
structure ValidationResult where
  value : Bool
  message : Option String
deriving DecidableEq

/-- The per-operation loop inside `Workflow.validate`: for each registered
operation, in order, first check it has a graph node, then check it is
present in the lookup. -/
def validateOps (w : Workflow) : List Operation → Option String
  | [] => none
  | op :: rest =>
    if ¬ w.graph.hasNode op.id then
      some ("workflow is missing operation \"" ++ op.id ++ "\" in its graph")
    else if (assocGet w.operations.lookup op.id).isNone then
      some ("failed to find operation \"" ++ op.id ++ "\" in the operation lookup")
    else validateOps w rest

/-- Port of `Workflow.validate`. -/
def Workflow.validate (w : Workflow) : ValidationResult :=
  if w.graph.sources.length ≠ 1 then
    ⟨false, some "workflow graph must have exactly one source node"⟩
  else if w.graph.sinks.length ≠ 1 then
    ⟨false, some "workflow graph must have exactly one sink node"⟩
  else if ¬ w.graph.isAcyclic then
    ⟨false, some "workflow graph must be acyclic"⟩
  else
    match validateOps w w.operations.value with
    | some msg => ⟨false, some msg⟩
    | none =>
      if (uniq (w.operations.value.map (fun op => op.id))).length ≠
          w.operations.value.length then
        ⟨false, some "the workflow contains duplicate operations"⟩
      else
        ⟨true, none⟩

/-- In-place mutation (or replacement) of the operation object with this
id, reflected in both the array and the lookup. -/
def OpsCollection.updateOp (c : OpsCollection) (op : Operation) : OpsCollection :=
  ⟨c.value.map (fun o => if o.id = op.id then op else o), assocSet c.lookup op.id op⟩

/-- Appending a new operation object to both the array and the lookup. -/
def OpsCollection.pushOp (c : OpsCollection) (op : Operation) : OpsCollection :=
  ⟨c.value ++ [op], assocSet c.lookup op.id op⟩

/-- Calling `clear()` on the operation object bound to this id: the object
is shared between the array and the lookup, so both entries lose their
cache. -/
def OpsCollection.clearById (c : OpsCollection) (id : String) : OpsCollection :=
  ⟨c.value.map (fun o => if o.id = id then o.clear else o),
   c.lookup.map (fun p => if p.1 = id then (p.1, p.2.clear) else p)⟩

/-- Source-node branch of `Workflow.eval`: fails when `input` is nullish,
otherwise evaluates the operation directly with `input`, wrapping any
callable failure as `OPERATION_FAILED`. -/
def Workflow.evalSource (w : Workflow) (id : String) (ctx : Val) (input : Option Val) :
    Except JsError (Val × Workflow) :=
  if isNullish input then
    .error (.failedWorkflowAction
      ("operation \"" ++ id ++ "\" is the graph's source node but input has not been provided"))
  else
    match nonEmpty (assocGet w.operations.lookup id) "unspecified" with
    | .error e => .error e
    | .ok op =>
      match op.eval ctx input with
      | .error e => .error (.operationFailed "operation failed" id e)
      | .ok (v, op', _) => .ok (v, ⟨w.graph, w.operations.updateOp op'⟩)

/-- The upstream-edges loop of `Workflow.eval`: for each in-edge, in
order, require the source operation to exist and to be done, then bind
`operationInput[sourceOp.id] = sourceOp.value`. -/
def compositeInput (lk : List (String × Operation)) :
    List (String × String) → Except JsError (List (String × Val))
  | [] => .ok []
  | e :: rest =>
    match nonEmpty (assocGet lk e.1) "unspecified" with
    | .error err => .error err
    | .ok sourceOp =>
      if ¬ sourceOp.done then
        .error (.failedWorkflowAction
          ("input operation \"" ++ sourceOp.id ++ "\" has not been evaluated"))
      else
        match sourceOp.value with
        | .error err => .error err
        | .ok v =>
          match compositeInput lk rest with
          | .error err => .error err
          | .ok fields => .ok ((sourceOp.id, v) :: fields)

/-- Non-source branch of `Workflow.eval`: build the composite input from
the upstream caches, then evaluate the operation with it, wrapping any
callable failure as `OPERATION_FAILED`. -/
def Workflow.evalWithEdges (w : Workflow) (id : String) (ctx : Val)
    (edges : List (String × String)) : Except JsError (Val × Workflow) :=
  match compositeInput w.operations.lookup edges with
  | .error e => .error e
  | .ok fields =>
    match nonEmpty (assocGet w.operations.lookup id) "unspecified" with
    | .error e => .error e
    | .ok op =>
      match op.eval ctx (some (Val.obj fields)) with
      | .error e => .error (.operationFailed "operation failed" id e)
      | .ok (v, op', _) => .ok (v, ⟨w.graph, w.operations.updateOp op'⟩)

/-- Port of `Workflow.eval(id, { $, input })`: dispatch on the in-edges of
`id` (`none` models graphlib's `undefined` for an unknown node). -/
def Workflow.eval (w : Workflow) (id : String) (ctx : Val) (input : Option Val) :
    Except JsError (Val × Workflow) :=
  match w.graph.inEdges id with
  | none => w.evalSource id ctx input
  | some [] => w.evalSource id ctx input
  | some (e :: rest) => w.evalWithEdges id ctx (e :: rest)

mutual

/-- Port of `computeRequiredToNode(nodes, graph, node)`: for each in-edge
of `node`, push its source onto the accumulator and recurse from it (the
traversal is deliberately not deduplicated).  The `fuel` argument models
the JS call stack: the source recursion is unbounded and on a cyclic
graph overflows the stack (a thrown `RangeError`, here `.external`); on
an acyclic graph a fuel exceeding the longest backward path is never
exhausted. -/
def computeRequiredToNode (fuel : Nat) (g : Graph) (acc : List String) (node : String) :
    Except JsError (List String) :=
  match fuel with
  | 0 => .error (.external "maximum call stack size exceeded")
  | fuel + 1 =>
    match g.inEdges node with
    | none =>
      .error (.failedWorkflowAction ("unable to find in edges for node \"" ++ node ++ "\""))
    | some edges => computeRequiredFold fuel g acc edges
termination_by (fuel, 0, 0)

/-- The `for (const edge of edges)` loop of `computeRequiredToNode`. -/
def computeRequiredFold (fuel : Nat) (g : Graph) (acc : List String)
    (l : List (String × String)) : Except JsError (List String) :=
  match l with
  | [] => .ok acc
  | e :: rest =>
    match computeRequiredToNode fuel g (acc ++ [e.1]) e.1 with
    | .error err => .error err
    | .ok acc' => computeRequiredFold fuel g acc' rest
termination_by (fuel, 1, l.length)

end

/-- The body of `Workflow.upto`'s evaluation loop, instrumented with the
list of operation ids it has evaluated (`trace`).  Stops and returns the
output once the target operation has been evaluated; falls off the end
with `none` (JS `undefined`) otherwise. -/
def Workflow.uptoLoop (ctx : Val) (input : Option Val) (target : String) :
    List String → Workflow → List String →
    Except JsError (Workflow × List String × Option Val)
  | [], w, trace => .ok (w, trace, none)
  | oid :: rest, w, trace =>
    match nonEmpty (assocGet w.operations.lookup oid) "unspecified" with
    | .error e => .error e
    | .ok op =>
      match w.eval op.id ctx input with
      | .error e => .error e
      | .ok (v, w') =>
        if op.id = target then
          .ok (w', trace ++ [op.id], some v)
        else
          Workflow.uptoLoop ctx input target rest w' (trace ++ [op.id])

/-- The null-id resolution of `Workflow.upto`: `null` resolves to the
unique sink (failing unless exactly one sink exists). -/
def Workflow.resolveUptoId (w : Workflow) (idq : Option String) : Except JsError String :=
  match idq with
  | some i => .ok i
  | none =>
    if w.graph.sinks.length ≠ 1 then
      .error (.failedWorkflowAction "workflow graph does not have exactly one sink")
    else
      match w.graph.sinks with
      | [] => .error (.failedWorkflowAction "workflow graph does not have exactly one sink")
      | s :: _ => .ok s

/-- Port of `Workflow.upto(id, { $, input })`: compute the required node
set by walking backward from `id`, topologically sort the whole graph,
filter the sort down to the required set, and evaluate the filtered nodes
in order until `id` is reached.  The returned triple is the updated
workflow, the evaluated ids in order, and the produced value. -/
def Workflow.upto (w : Workflow) (idq : Option String) (ctx : Val) (input : Option Val) :
    Except JsError (Workflow × List String × Option Val) :=
  match w.resolveUptoId idq with
  | .error e => .error e
  | .ok id =>
    match computeRequiredToNode (w.graph.nodes.length + 1) w.graph [id] id with
    | .error e => .error e
    | .ok requiredNodes =>
      match w.graph.topsort? with
      | none => .error (.external "CycleException")
      | some topsortNodes =>
        Workflow.uptoLoop ctx input id
          (topsortNodes.filter (fun n => requiredNodes.contains n)) w []

/-- State threaded through `Workflow.sync`: the working copy's operations
(`work`), the argument workflow's operations (`arg` — the source
mutates them through shared references), and the ids whose entry in the
working copy is (by reference) the argument's own object (`shared`). -/
structure SyncState where
  work : OpsCollection
  arg : OpsCollection
  shared : List String

/-- The downstream-invalidation loop of `Workflow.sync`: for each id of
the preorder traversal, `clear()` the operation object bound to it in the
working copy.  When that object is the argument workflow's own object
(an id in `shared`), the argument sees the same mutation. -/
def syncClearDown : SyncState → List String → Except JsError SyncState
  | st, [] => .ok st
  | st, downId :: rest =>
    match nonEmpty (assocGet st.work.lookup downId) "unspecified" with
    | .error e => .error e
    | .ok _ =>
      syncClearDown
        ⟨st.work.clearById downId,
         if st.shared.contains downId then st.arg.clearById downId else st.arg,
         st.shared⟩ rest

/-- The "new to old operations" stage of `Workflow.sync`, iterating the
new workflow's operation array.  A new id is pushed (by reference); a
changed function hash replaces the entry (by reference) and clears every
operation reachable in the *old* graph from that id; an unchanged hash
leaves the working copy's (cloned) entry alone. -/
def syncPhase2 (oldOps : OpsCollection) (oldGraph : Graph) :
    List Operation → SyncState → Except JsError SyncState
  | [], st => .ok st
  | newOp :: rest, st =>
    -- The iterated array element is the argument's live object; its
    -- current state is read through the argument collection (these
    -- coincide unless an earlier step already mutated the shared object).
    let nOp := (st.arg.value.find? (fun o => o.id = newOp.id)).getD newOp
    match assocGet oldOps.lookup nOp.id with
    | none =>
      syncPhase2 oldOps oldGraph rest
        ⟨st.work.pushOp nOp, st.arg, st.shared ++ [nOp.id]⟩
    | some oldOp =>
      if (Operation.marshal nOp).func.hash ≠ (Operation.marshal oldOp).func.hash then
        match oldGraph.preorder [nOp.id] with
        | .error e => .error e
        | .ok downIds =>
          match syncClearDown
              ⟨st.work.updateOp nOp, st.arg, st.shared ++ [nOp.id]⟩ downIds with
          | .error e => .error e
          | .ok st' => syncPhase2 oldOps oldGraph rest st'
      else
        syncPhase2 oldOps oldGraph rest st

/-- The "old to new operations" stage of `Workflow.sync`, iterating the
old workflow's original operation array: ids absent from the new
workflow's lookup are removed from the working copy (array and lookup). -/
def syncPhase3 : List Operation → SyncState → SyncState
  | [], st => st
  | oldOp :: rest, st =>
    match assocGet st.arg.lookup oldOp.id with
    | none =>
      syncPhase3 rest
        ⟨⟨st.work.value.filter (fun o => ¬ o.id = oldOp.id),
          assocDel st.work.lookup oldOp.id⟩, st.arg, st.shared⟩
    | some _ => syncPhase3 rest st

/-- Port of `Workflow.sync(newWorkflow)`: clone the current workflow, take
the new workflow's graph wholesale, reconcile new-to-old then old-to-new,
and commit.  The source mutates `this` in place and, through shared
`Operation` references, also the argument; the model returns the pair
(updated `this`, updated argument). -/
def Workflow.sync (old newW : Workflow) : Except JsError (Workflow × Workflow) :=
  match old.clone with
  | .error e => .error e
  | .ok workflow =>
    match syncPhase2 old.operations old.graph newW.operations.value
        ⟨workflow.operations, newW.operations, []⟩ with
    | .error e => .error e
    | .ok st =>
      let st' := syncPhase3 old.operations.value st
      .ok (⟨newW.graph, st'.work⟩, ⟨newW.graph, st'.arg⟩)

/-! ### Claim C5 — validate -/

/-- Concrete workflow for the C5 counterexample: the graph tracks nodes
`a` and `b` (edge `a → b`), but only `a` has a registered Operation; `b`
has no entry in the operation lookup. -/
def c5Workflow : Workflow :=
  Workflow.make ⟨["a", "b"], [("a", "b")]⟩
    [Operation.make "a" (.inr ⟨"fa", fun _ _ => .ok (Val.str "x")⟩) none]

/-- C5 (counterexample): the claim says a workflow whose graph contains a
node id with no corresponding entry in the Operation lookup fails
validation; on this workflow `validate` succeeds even though graph node
`b` has no Operation — the per-operation loop iterates the registered
operations, never the graph's nodes. -/
theorem c5_node_without_operation_passes_validation :
    c5Workflow.validate = ⟨true, none⟩
    ∧ c5Workflow.graph.hasNode "b" = true
    ∧ (assocGet c5Workflow.operations.lookup "b").isNone = true :=
  ⟨rfl, rfl, rfl⟩

/-- Amended-claim reformulation of `validate`: short-circuit (1) exactly
one source node, (2) exactly one sink node, (3) acyclic graph, then, per
registered Operation in collection order, (4) the Operation has a graph
node and (5) the Operation's id is present in the lookup, then (6) no
duplicate Operation ids; the first failing check's message is returned
and failures are never aggregated.  Checks (4)/(5) range over the
registered Operations only, so an extra graph node with no Operation
passes.  Written with `List.findSome?` instead of the source's explicit
recursion. -/
def validateSpec (w : Workflow) : ValidationResult :=
  let failure : Option String :=
    if w.graph.sources.length ≠ 1 then
      some "workflow graph must have exactly one source node"
    else if w.graph.sinks.length ≠ 1 then
      some "workflow graph must have exactly one sink node"
    else if ¬ w.graph.isAcyclic then
      some "workflow graph must be acyclic"
    else
      match w.operations.value.findSome? (fun op =>
        if ¬ w.graph.hasNode op.id then
          some ("workflow is missing operation \"" ++ op.id ++ "\" in its graph")
        else if (assocGet w.operations.lookup op.id).isNone then
          some ("failed to find operation \"" ++ op.id ++ "\" in the operation lookup")
        else none) with
      | some m => some m
      | none =>
        if (uniq (w.operations.value.map (fun op => op.id))).length ≠
            w.operations.value.length then
          some "the workflow contains duplicate operations"
        else none
  match failure with
  | some m => ⟨false, some m⟩
  | none => ⟨true, none⟩

theorem validateOps_eq_findSome (w : Workflow) :
    ∀ ops : List Operation, validateOps w ops = ops.findSome? (fun op =>
      if ¬ w.graph.hasNode op.id then
        some ("workflow is missing operation \"" ++ op.id ++ "\" in its graph")
      else if (assocGet w.operations.lookup op.id).isNone then
        some ("failed to find operation \"" ++ op.id ++ "\" in the operation lookup")
      else none) := by
  intro ops
  induction ops with
  | nil => rfl
  | cons op rest ih =>
    rw [List.findSome?_cons]
    unfold validateOps
    by_cases h1 : w.graph.hasNode op.id
    · rw [if_neg (by simpa using h1)]
      simp only [h1, not_true_eq_false, if_false]
      by_cases h2 : (assocGet w.operations.lookup op.id).isNone
      · rw [if_pos h2]
        simp [h2]
      · rw [if_neg h2]
        simp only [Bool.not_eq_true] at h2
        simp [h2, ih]
  
    · rw [if_pos (by simpa using h1)]
      simp [h1]

/-- C5 (amended): `validate` equals the amended specification — the same
six checks in the same short-circuit order, with checks (4)/(5) ranging
over the registered Operations (not the graph's nodes), never
aggregating failures. -/
theorem c5_validate_refines_spec (w : Workflow) : w.validate = validateSpec w := by
  unfold Workflow.validate validateSpec
  rw [validateOps_eq_findSome]
  by_cases h1 : w.graph.sources.length = 1
  · simp only [h1]
    by_cases h2 : w.graph.sinks.length = 1
    · simp only [h2]
      by_cases h3 : w.graph.isAcyclic
      · simp only [h3]
        match (w.operations.value.findSome? _) with
        | some m => simp
        | none =>
          by_cases h4 : (uniq (w.operations.value.map (fun op => op.id))).length =
              w.operations.value.length
          · simp [h4]
          · simp [h4]
      · simp [h3]
    · simp [h2]
  · simp [h1]

/-! ### Claim C3 — marshal/unmarshal round-trip -/

theorem operation_marshal_unmarshal (op : Operation) (registry : FunctionRegistry)
    (hreg : assocGet registry op.func.id = some op.func.fn)
    (hhash : op.func.hash = computeFunctionHash op.func.fn) :
    Operation.unmarshal op.marshal registry =
      .ok ⟨op.id, OperationFunction.make op.func.id op.func.fn,
        op.marshal.cache.map (fun c => ⟨c.hash, c.value⟩)⟩
    ∧ (Operation.mk op.id (OperationFunction.make op.func.id op.func.fn)
        (op.marshal.cache.map (fun c => ⟨c.hash, c.value⟩))).marshal = op.marshal := by
  constructor
  · unfold Operation.unmarshal OperationFunction.unmarshal
    have hfid : (Operation.marshal op).func.id = op.func.id := rfl
    rw [hfid, hreg]
    rfl
  · unfold Operation.marshal OperationFunction.marshal OperationFunction.make
    simp only [hhash]
    cases hc : op.cache with
    | none => rfl
    | some c =>
      simp only [Option.map_some']
      by_cases hnull : c.value = Val.null
      · simp [hnull]
      · simp [hnull]

theorem unmarshalOps_roundtrip (registry : FunctionRegistry) :
    ∀ ops : List Operation,
      (∀ op ∈ ops, assocGet registry op.func.id = some op.func.fn) →
      (∀ op ∈ ops, op.func.hash = computeFunctionHash op.func.fn) →
      ∃ ops2, unmarshalOps registry (ops.map Operation.marshal) = .ok ops2
        ∧ ops2.map Operation.marshal = ops.map Operation.marshal := by
  intro ops
  induction ops with
  | nil => intro _ _; exact ⟨[], rfl, rfl⟩
  | cons op rest ih =>
    intro hreg hhash
    obtain ⟨ops2, h1, h2⟩ := ih
      (fun o ho => hreg o (List.mem_cons_of_mem op ho))
      (fun o ho => hhash o (List.mem_cons_of_mem op ho))
    obtain ⟨hu, hm⟩ := operation_marshal_unmarshal op registry
      (hreg op (List.mem_cons_self op rest))
      (hhash op (List.mem_cons_self op rest))
    refine ⟨⟨op.id, OperationFunction.make op.func.id op.func.fn,
      op.marshal.cache.map (fun c => ⟨c.hash, c.value⟩)⟩ :: ops2, ?_, ?_⟩
    · rw [List.map_cons]
      unfold unmarshalOps
      rw [hu, h1]
    · rw [List.map_cons, List.map_cons, hm, h2]

/-- C3: for every workflow whose function-reference hashes are the ones
computed from their callables (the construction invariant) and every
registry mapping each function-reference id to the original callable,
`Workflow.unmarshal(w.marshal(), registry)` succeeds and marshaling the
restored workflow reproduces the original snapshot exactly — the same
graph payload and the same operation snapshots in the same insertion
order. -/
theorem c3_marshal_roundtrip (w : Workflow) (registry : FunctionRegistry)
    (hreg : ∀ op ∈ w.operations.value, assocGet registry op.func.id = some op.func.fn)
    (hhash : ∀ op ∈ w.operations.value, op.func.hash = computeFunctionHash op.func.fn) :
    ∃ w2, Workflow.unmarshal w.marshal registry = .ok w2 ∧ w2.marshal = w.marshal := by
  obtain ⟨ops2, h1, h2⟩ := unmarshalOps_roundtrip registry w.operations.value hreg hhash
  refine ⟨Workflow.make w.marshal.graph ops2, ?_, ?_⟩
  · unfold Workflow.unmarshal
    have hops : w.marshal.operations = w.operations.value.map Operation.marshal := rfl
    rw [hops, h1]
  · unfold Workflow.marshal
    show WorkflowData.mk w.graph (List.map Operation.marshal ops2) =
      WorkflowData.mk w.graph (List.map Operation.marshal w.operations.value)
    rw [h2]

/-- Concrete workflow for the C3 witness: two operations in a chain, one
with a null cached value (exercising the `"{}"` placeholder), one with a
string cached value. -/
def c3Fn1 : Callable := ⟨"fa", fun _ _ => .ok Val.null⟩

/-- Second concrete callable for the C3 witness. -/
def c3Fn2 : Callable := ⟨"fb", fun _ _ => .ok (Val.str "y")⟩

/-- Concrete workflow for the C3 witness. -/
def c3Workflow : Workflow :=
  Workflow.make ⟨["a", "b"], [("a", "b")]⟩
    [Operation.make "a" (.inr c3Fn1) (some ⟨"ha", Val.null⟩),
     Operation.make "b" (.inr c3Fn2) (some ⟨"hb", Val.str "vb"⟩)]

/-- Concrete registry for the C3 witness, holding the original callables. -/
def c3Registry : FunctionRegistry := [("a", c3Fn1), ("b", c3Fn2)]

/-- Witness for `c3_marshal_roundtrip` at a concrete workflow and its
registry of original callables. -/
theorem c3_marshal_roundtrip_witness :
    ∃ w2, Workflow.unmarshal c3Workflow.marshal c3Registry = .ok w2
      ∧ w2.marshal = c3Workflow.marshal :=
  c3_marshal_roundtrip c3Workflow c3Registry
    (by
      intro op hop
      simp only [c3Workflow, Workflow.make, List.mem_cons, List.not_mem_nil, or_false] at hop
      rcases hop with rfl | rfl
      · rfl
      · rfl)
    (by
      intro op hop
      simp only [c3Workflow, Workflow.make, List.mem_cons, List.not_mem_nil, or_false] at hop
      rcases hop with rfl | rfl
      · rfl
      · rfl)

/-! ### Claim C6 — Workflow.eval -/

/-- Unfolding equation for `compositeInput` once the upstream lookup is
known to succeed. -/
theorem compositeInput_cons (lk : List (String × Operation)) (e : String × String)
    (rest : List (String × String)) (sop : Operation)
    (hget : assocGet lk e.1 = some sop) :
    compositeInput lk (e :: rest) =
      (if ¬ sop.done = true then
        .error (.failedWorkflowAction
          ("input operation \"" ++ sop.id ++ "\" has not been evaluated"))
      else
        match sop.value with
        | .error err => .error err
        | .ok v =>
          match compositeInput lk rest with
          | .error err => .error err
          | .ok fields => .ok ((sop.id, v) :: fields)) := by
  simp only [compositeInput, hget, nonEmpty]

/-- Relation between an in-edge and the composite-input entry it
contributes: the upstream operation exists, is cached, and contributes
`(upstreamOp.id, cachedValue)`. -/
def EdgeEntry (lk : List (String × Operation)) (e : String × String)
    (entry : String × Val) : Prop :=
  ∃ sop c, assocGet lk e.1 = some sop ∧ sop.cache = some c ∧ entry = (sop.id, c.value)

theorem compositeInput_all_done (lk : List (String × Operation)) :
    ∀ (edges : List (String × String)) (entries : List (String × Val)),
      List.Forall₂ (EdgeEntry lk) edges entries →
      compositeInput lk edges = .ok entries := by
  intro edges entries hrel
  induction edges generalizing entries with
  | nil =>
    cases hrel
    rfl
  | cons e es ih =>
    cases hrel with
    | cons hhead htail =>
      obtain ⟨sop, c, hget, hcache, hentry⟩ := hhead
      rw [compositeInput_cons lk e es sop hget]
      have hdone : sop.done = true := by
        unfold Operation.done
        rw [hcache]
        rfl
      rw [if_neg (by simp [hdone])]
      unfold Operation.value
      rw [hcache, ih _ htail, hentry]

theorem compositeInput_not_done (lk : List (String × Operation)) :
    ∀ edges : List (String × String),
      (∀ e ∈ edges, (assocGet lk e.1).isSome = true) →
      (∃ e ∈ edges, ∃ sop, assocGet lk e.1 = some sop ∧ sop.done = false) →
      ∃ sop, sop.done = false ∧ (∃ e ∈ edges, assocGet lk e.1 = some sop) ∧
        compositeInput lk edges = .error (.failedWorkflowAction
          ("input operation \"" ++ sop.id ++ "\" has not been evaluated")) := by
  intro edges
  induction edges with
  | nil =>
    rintro _ ⟨e, he, _⟩
    cases he
  | cons e rest ih =>
    intro hsome hex
    obtain ⟨sop0, hget0⟩ := Option.isSome_iff_exists.mp (hsome e (List.mem_cons_self e rest))
    by_cases hdone : sop0.done
    · -- head is done: the witness must be in the tail
      have hex' : ∃ e' ∈ rest, ∃ sop, assocGet lk e'.1 = some sop ∧ sop.done = false := by
        obtain ⟨e', he', sop, hget, hnd⟩ := hex
        rcases List.mem_cons.mp he' with rfl | he'
        · rw [hget] at hget0
          cases hget0
          rw [hdone] at hnd
          cases hnd
        · exact ⟨e', he', sop, hget, hnd⟩
      obtain ⟨sop, hnd, ⟨e', he', hget⟩, hcomp⟩ :=
        ih (fun x hx => hsome x (List.mem_cons_of_mem e hx)) hex'
      refine ⟨sop, hnd, ⟨e', List.mem_cons_of_mem e he', hget⟩, ?_⟩
      rw [compositeInput_cons lk e rest sop0 hget0]
      rw [if_neg (by simp [hdone])]
      obtain ⟨c, hc⟩ := Option.isSome_iff_exists.mp hdone
      unfold Operation.value
      rw [hc, hcomp]
    · -- head is the first incomplete upstream operation
      refine ⟨sop0, by simpa using hdone, ⟨e, List.mem_cons_self e rest, hget0⟩, ?_⟩
      rw [compositeInput_cons lk e rest sop0 hget0]
      rw [if_pos (by simpa using hdone)]

/-- Helper: `Operation.eval` fails exactly when the cache misses and the
underlying callable throws, and the error is propagated unchanged. -/
theorem operation_eval_error_iff (op : Operation) (ctx : Val) (input : Option Val)
    (e : JsError) :
    op.eval ctx input = .error e ↔
      ((∀ c, op.cache = some c → ¬ c.hash = Operation.computeHash input) ∧
        op.func.invoke ctx input = .error e) := by
  unfold Operation.eval
  match hc : op.cache with
  | none =>
    simp only
    match hi : op.func.invoke ctx input with
    | .error e' => simp
    | .ok v => simp
  | some c =>
    simp only
    by_cases hh : c.hash = Operation.computeHash input
    · rw [if_pos hh]
      constructor
      · intro h
        cases h
      · rintro ⟨hmiss, _⟩
        exact absurd hh (hmiss c rfl)
    · rw [if_neg hh]
      match hi : op.func.invoke ctx input with
      | .error e' =>
        simp only [Except.error.injEq]
        constructor
        · rintro rfl
          exact ⟨fun c' hc' => by cases hc'; exact hh, rfl⟩
        · rintro ⟨_, h⟩
          cases h
          rfl
      | .ok v =>
        simp only
        constructor
        · intro h
          cases h
        · rintro ⟨_, h⟩
          cases h

/-- C6: behaviour of `Workflow.eval(id, { $, input })`.
(1) With no incoming edges and a nullish input it fails with
`FAILED_WORKFLOW_ACTION`; (2) with no incoming edges and an input it
evaluates the operation directly with that input, wrapping any failure of
the operation's callable as `OPERATION_FAILED { id, error }`; (3) with
incoming edges and some upstream operation incomplete it fails with
`FAILED_WORKFLOW_ACTION` naming an incomplete upstream operation; (4)
with incoming edges and every upstream operation done it evaluates the
operation with the composite object mapping each upstream operation's id
to its cached value (in edge order), wrapping any callable failure as
`OPERATION_FAILED { id, error }`.  (`operation_eval_error_iff` states
that an `Operation.eval` failure is exactly an unchanged propagated
callable failure.) -/
theorem c6_workflow_eval_spec (w : Workflow) (id : String) (ctx : Val) (input : Option Val) :
    ((w.graph.inEdges id = none ∨ w.graph.inEdges id = some []) → isNullish input = true →
      w.eval id ctx input = .error (.failedWorkflowAction
        ("operation \"" ++ id ++ "\" is the graph's source node but input has not been provided")))
    ∧
    (∀ op, (w.graph.inEdges id = none ∨ w.graph.inEdges id = some []) →
      isNullish input = false →
      assocGet w.operations.lookup id = some op →
      w.eval id ctx input =
        match op.eval ctx input with
        | .error e => .error (.operationFailed "operation failed" id e)
        | .ok (v, op', _) => .ok (v, ⟨w.graph, w.operations.updateOp op'⟩))
    ∧
    (∀ edges, w.graph.inEdges id = some edges → edges ≠ [] →
      (∀ e ∈ edges, (assocGet w.operations.lookup e.1).isSome = true) →
      (∃ e ∈ edges, ∃ sop, assocGet w.operations.lookup e.1 = some sop ∧ sop.done = false) →
      ∃ sop, sop.done = false ∧
        (∃ e ∈ edges, assocGet w.operations.lookup e.1 = some sop) ∧
        w.eval id ctx input = .error (.failedWorkflowAction
          ("input operation \"" ++ sop.id ++ "\" has not been evaluated")))
    ∧
    (∀ edges op entries, w.graph.inEdges id = some edges → edges ≠ [] →
      assocGet w.operations.lookup id = some op →
      List.Forall₂ (EdgeEntry w.operations.lookup) edges entries →
      w.eval id ctx input =
        match op.eval ctx (some (Val.obj entries)) with
        | .error e => .error (.operationFailed "operation failed" id e)
        | .ok (v, op', _) => .ok (v, ⟨w.graph, w.operations.updateOp op'⟩)) := by
  refine ⟨?_, ?_, ?_, ?_⟩
  · intro hedges hnull
    unfold Workflow.eval
    rcases hedges with h | h
    · rw [h]
      unfold Workflow.evalSource
      rw [if_pos hnull]
    · rw [h]
      unfold Workflow.evalSource
      rw [if_pos hnull]
  · intro op hedges hnn hget
    have hsrc : w.evalSource id ctx input =
        match op.eval ctx input with
        | .error e => .error (.operationFailed "operation failed" id e)
        | .ok (v, op', _) => .ok (v, ⟨w.graph, w.operations.updateOp op'⟩) := by
      unfold Workflow.evalSource nonEmpty
      rw [if_neg (by simp [hnn]), hget]
    unfold Workflow.eval
    rcases hedges with h | h
    · rw [h]
      exact hsrc
    · rw [h]
      exact hsrc
  · intro edges hedges hne hsome hex
    obtain ⟨sop, hnd, hw, hcomp⟩ := compositeInput_not_done w.operations.lookup edges hsome hex
    refine ⟨sop, hnd, hw, ?_⟩
    unfold Workflow.eval
    rw [hedges]
    match edges, hne, hcomp with
    | e :: rest, _, hcomp =>
      show w.evalWithEdges id ctx (e :: rest) = _
      unfold Workflow.evalWithEdges
      rw [hcomp]
  · intro edges op entries hedges hne hget hrel
    have hcomp := compositeInput_all_done w.operations.lookup edges entries hrel
    unfold Workflow.eval
    rw [hedges]
    match edges, hne, hcomp with
    | e :: rest, _, hcomp =>
      show w.evalWithEdges id ctx (e :: rest) = _
      unfold Workflow.evalWithEdges
      rw [hcomp]
      unfold nonEmpty
      rw [hget]

/-- Witness setup for C6: chain `a → b` with `a` cached and `b` fresh. -/
def c6OpA : Operation :=
  Operation.make "a" (.inr ⟨"fa", fun _ _ => .ok (Val.str "x")⟩) (some ⟨"ha", Val.str "va"⟩)

/-- Second operation for the C6 witness. -/
def c6OpB : Operation :=
  Operation.make "b" (.inr ⟨"fb", fun _ _ => .ok (Val.str "y")⟩) none

/-- Concrete workflow for the C6 witness. -/
def c6Workflow : Workflow :=
  Workflow.make ⟨["a", "b"], [("a", "b")]⟩ [c6OpA, c6OpB]

/-- Witness for `c6_workflow_eval_spec`: evaluating the source with no
input is the `FAILED_WORKFLOW_ACTION` failure, and evaluating `b` (whose
upstream `a` is cached) evaluates `b` with the composite input
`{ a: cachedValue }`. -/
theorem c6_workflow_eval_spec_witness :
    c6Workflow.eval "a" Val.null none = .error (.failedWorkflowAction
      ("operation \"" ++ "a" ++ "\" is the graph's source node but input has not been provided"))
    ∧ c6Workflow.eval "b" Val.null none =
      (match c6OpB.eval Val.null (some (Val.obj [("a", Val.str "va")])) with
        | .error e => .error (.operationFailed "operation failed" "b" e)
        | .ok (v, op', _) => .ok (v, ⟨c6Workflow.graph, c6Workflow.operations.updateOp op'⟩)) :=
  ⟨(c6_workflow_eval_spec c6Workflow "a" Val.null none).1 (Or.inr rfl) rfl,
   (c6_workflow_eval_spec c6Workflow "b" Val.null none).2.2.2 [("a", "b")] c6OpB
     [("a", Val.str "va")] rfl (List.cons_ne_nil _ _) rfl
     (List.Forall₂.cons ⟨c6OpA, ⟨"ha", Val.str "va"⟩, rfl, rfl, rfl⟩ List.Forall₂.nil)⟩

/-! ### Association-list and lookup lemmas -/

theorem assocGet_map_replace {α : Type} {k : String} {v : α} :
    ∀ l : List (String × α), (l.find? (fun p => p.1 = k)).isSome = true →
      assocGet (l.map (fun p => if p.1 = k then (k, v) else p)) k = some v := by
  intro l
  induction l with
  | nil => intro h; cases h
  | cons p rest ih =>
    intro hsome
    by_cases hk : p.1 = k
    · unfold assocGet
      rw [List.map_cons, if_pos hk]
      rw [List.find?_cons_of_pos _ (by simp)]
      rfl
    · unfold assocGet
      rw [List.map_cons, if_neg hk]
      rw [List.find?_cons_of_neg _ (by simpa using hk)]
      rw [List.find?_cons_of_neg _ (by simpa using hk)] at hsome
      exact ih hsome

theorem assocGet_append_single {α : Type} {k : String} {v : α} :
    ∀ l : List (String × α), l.find? (fun p => p.1 = k) = none →
      assocGet (l ++ [(k, v)]) k = some v := by
  intro l
  induction l with
  | nil =>
    intro _
    unfold assocGet
    rw [List.nil_append, List.find?_cons_of_pos _ (by simp)]
    rfl
  | cons p rest ih =>
    intro hnone
    by_cases hk : p.1 = k
    · rw [List.find?_cons_of_pos _ (by simpa using hk)] at hnone
      cases hnone
    · rw [List.find?_cons_of_neg _ (by simpa using hk)] at hnone
      unfold assocGet
      rw [List.cons_append, List.find?_cons_of_neg _ (by simpa using hk)]
      exact ih hnone

theorem assocGet_assocSet_self {α : Type} (l : List (String × α)) (k : String) (v : α) :
    assocGet (assocSet l k v) k = some v := by
  unfold assocSet
  by_cases h : (l.find? (fun p => p.1 = k)).isSome
  · rw [if_pos h]
    exact assocGet_map_replace l h
  · rw [if_neg h]
    exact assocGet_append_single l (Option.not_isSome_iff_eq_none.mp h)

theorem assocGet_assocSet_ne {α : Type} (l : List (String × α)) (k k' : String) (v : α)
    (hne : k ≠ k') : assocGet (assocSet l k v) k' = assocGet l k' := by
  unfold assocSet
  by_cases h : (l.find? (fun p => p.1 = k)).isSome
  · rw [if_pos h]
    clear h
    induction l with
    | nil => rfl
    | cons p rest ih =>
      by_cases hk : p.1 = k
      · unfold assocGet
        rw [List.map_cons, if_pos hk]
        rw [List.find?_cons_of_neg _ (by simpa using hne)]
        rw [List.find?_cons_of_neg _ (by rw [hk]; simpa using hne)]
        exact ih
      · unfold assocGet
        rw [List.map_cons, if_neg hk]
        by_cases hk' : p.1 = k'
        · rw [List.find?_cons_of_pos _ (by simpa using hk'),
            List.find?_cons_of_pos _ (by simpa using hk')]
        · rw [List.find?_cons_of_neg _ (by simpa using hk'),
            List.find?_cons_of_neg _ (by simpa using hk')]
          exact ih
  · rw [if_neg h]
    clear h
    induction l with
    | nil =>
      unfold assocGet
      rw [List.nil_append, List.find?_cons_of_neg _ (by simpa using hne)]
    | cons p rest ih =>
      unfold assocGet
      by_cases hk' : p.1 = k'
      · rw [List.cons_append, List.find?_cons_of_pos _ (by simpa using hk'),
          List.find?_cons_of_pos _ (by simpa using hk')]
      · rw [List.cons_append, List.find?_cons_of_neg _ (by simpa using hk'),
          List.find?_cons_of_neg _ (by simpa using hk')]
        exact ih

theorem assocGet_foldl_set_absent {α : Type} (f : Operation → α) :
    ∀ (ops : List Operation) (acc : List (String × α)) (k : String),
      (∀ o ∈ ops, o.id ≠ k) →
      assocGet (ops.foldl (fun acc o => assocSet acc o.id (f o)) acc) k = assocGet acc k := by
  intro ops
  induction ops with
  | nil => intro acc k _; rfl
  | cons o rest ih =>
    intro acc k hne
    rw [List.foldl_cons]
    rw [ih _ _ (fun o' ho' => hne o' (List.mem_cons_of_mem o ho'))]
    exact assocGet_assocSet_ne acc o.id k (f o) (hne o (List.mem_cons_self o rest))

theorem assocGet_foldl_set_mem {α : Type} (f : Operation → α) :
    ∀ (ops : List Operation) (acc : List (String × α)) (op : Operation),
      op ∈ ops → (ops.map (fun o => o.id)).Nodup →
      assocGet (ops.foldl (fun acc o => assocSet acc o.id (f o)) acc) op.id = some (f op) := by
  intro ops
  induction ops with
  | nil =>
    intro _ op hop _
    cases hop
  | cons o rest ih =>
    intro acc op hop hnodup
    rw [List.map_cons, List.nodup_cons] at hnodup
    rcases List.mem_cons.mp hop with rfl | hop
    · rw [List.foldl_cons]
      rw [assocGet_foldl_set_absent f rest _ op.id
        (fun o' ho' h' => hnodup.1 (h' ▸ List.mem_map.mpr ⟨o', ho', rfl⟩))]
      exact assocGet_assocSet_self acc op.id (f op)
    · rw [List.foldl_cons]
      exact ih _ op hop hnodup.2

theorem buildLookup_get_mem (ops : List Operation) (op : Operation)
    (hop : op ∈ ops) (hnodup : (ops.map (fun o => o.id)).Nodup) :
    assocGet (buildLookup ops) op.id = some op :=
  assocGet_foldl_set_mem (fun o => o) ops [] op hop hnodup

theorem buildLookup_get_absent (ops : List Operation) (k : String)
    (hne : ∀ o ∈ ops, o.id ≠ k) :
    assocGet (buildLookup ops) k = none :=
  assocGet_foldl_set_absent (fun o => o) ops [] k hne

theorem buildLookup_get_some (ops : List Operation) (k : String) (op : Operation)
    (hnodup : (ops.map (fun o => o.id)).Nodup)
    (hget : assocGet (buildLookup ops) k = some op) :
    op ∈ ops ∧ op.id = k := by
  by_cases hmem : ∃ o ∈ ops, o.id = k
  · obtain ⟨o, ho, hk⟩ := hmem
    subst hk
    rw [buildLookup_get_mem ops o ho hnodup] at hget
    cases hget
    exact ⟨ho, rfl⟩
  · rw [buildLookup_get_absent ops k (fun o ho h => hmem ⟨o, ho, h⟩)] at hget
    cases hget

theorem registry_get_mem (w : Workflow) (op : Operation)
    (hop : op ∈ w.operations.value)
    (hnodup : (w.operations.value.map (fun o => o.id)).Nodup) :
    assocGet w.registry op.id = some op.func.fn :=
  assocGet_foldl_set_mem (fun o => o.func.fn) w.operations.value [] op hop hnodup

theorem find?_id_self : ∀ (ops : List Operation) (op : Operation),
    op ∈ ops → (ops.map (fun o => o.id)).Nodup →
    ops.find? (fun o => o.id = op.id) = some op := by
  intro ops
  induction ops with
  | nil =>
    intro _ h
    cases h
  | cons o rest ih =>
    intro op hop hnodup
    rw [List.map_cons, List.nodup_cons] at hnodup
    rcases List.mem_cons.mp hop with rfl | hop
    · rw [List.find?_cons_of_pos _ (by simp)]
    · have hne : o.id ≠ op.id := by
        intro h
        exact hnodup.1 (h ▸ List.mem_map.mpr ⟨op, hop, rfl⟩)
      rw [List.find?_cons_of_neg _ (by simpa using hne)]
      exact ih op hop hnodup.2

/-! ### Clone and sync lemmas -/

/-- The per-operation effect of `clone` (marshal then unmarshal through
the workflow's own registry): same id, a function reference rebuilt from
the same callable with a recomputed hash, and the cache after the
serialization round trip (a null cached value becomes the empty object). -/
def cloneOp (op : Operation) : Operation :=
  ⟨op.id, OperationFunction.make op.func.id op.func.fn,
    op.cache.map (fun c => ⟨c.hash, if c.value = Val.null then Val.obj [] else c.value⟩)⟩

theorem operation_unmarshal_cloneOp (op : Operation) (registry : FunctionRegistry)
    (hreg : assocGet registry op.func.id = some op.func.fn) :
    Operation.unmarshal op.marshal registry = .ok (cloneOp op) := by
  unfold Operation.unmarshal OperationFunction.unmarshal Operation.marshal
    OperationFunction.marshal cloneOp
  simp only [hreg]
  cases op.cache <;> rfl

theorem unmarshalOps_cloneOp (registry : FunctionRegistry) :
    ∀ ops : List Operation,
      (∀ op ∈ ops, assocGet registry op.func.id = some op.func.fn) →
      unmarshalOps registry (ops.map Operation.marshal) = .ok (ops.map cloneOp) := by
  intro ops
  induction ops with
  | nil => intro _; rfl
  | cons op rest ih =>
    intro h
    rw [List.map_cons, List.map_cons]
    unfold unmarshalOps
    rw [operation_unmarshal_cloneOp op registry (h op (List.mem_cons_self op rest)),
      ih (fun o ho => h o (List.mem_cons_of_mem op ho))]

theorem workflow_clone (w : Workflow)
    (hfid : ∀ op ∈ w.operations.value, op.func.id = op.id)
    (hnodup : (w.operations.value.map (fun o => o.id)).Nodup) :
    w.clone = .ok (Workflow.make w.graph (w.operations.value.map cloneOp)) := by
  have hreg : ∀ op ∈ w.operations.value,
      assocGet w.registry op.func.id = some op.func.fn := by
    intro op hop
    rw [hfid op hop]
    exact registry_get_mem w op hop hnodup
  unfold Workflow.clone Workflow.unmarshal
  rw [show w.marshal.operations = w.operations.value.map Operation.marshal from rfl,
    unmarshalOps_cloneOp w.registry w.operations.value hreg]
  rfl

theorem cloneOp_id (op : Operation) : (cloneOp op).id = op.id := rfl

theorem cloneOp_cache_of_nonnull (op : Operation)
    (h : ∀ c, op.cache = some c → c.value ≠ Val.null) :
    (cloneOp op).cache = op.cache := by
  unfold cloneOp
  cases hc : op.cache with
  | none => rfl
  | some c =>
    simp only [Option.map_some']
    rw [if_neg (h c hc)]

theorem map_id_map_cloneOp (ops : List Operation) :
    ((ops.map cloneOp).map (fun o => o.id)) = ops.map (fun o => o.id) := by
  rw [List.map_map]
  exact List.map_congr_left (fun op _ => cloneOp_id op)

theorem forall₂_exists_left {R : Operation → Operation → Prop} :
    ∀ {l₁ l₂ : List Operation}, List.Forall₂ R l₁ l₂ → ∀ a ∈ l₁, ∃ b ∈ l₂, R a b := by
  intro l₁ l₂ h
  induction h with
  | nil =>
    intro a ha
    cases ha
  | cons hr _ ih =>
    intro a ha
    rcases List.mem_cons.mp ha with rfl | ha
    · exact ⟨_, List.mem_cons_self _ _, hr⟩
    · obtain ⟨b, hb, hrb⟩ := ih a ha
      exact ⟨b, List.mem_cons_of_mem _ hb, hrb⟩

theorem forall₂_exists_right {R : Operation → Operation → Prop} :
    ∀ {l₁ l₂ : List Operation}, List.Forall₂ R l₁ l₂ → ∀ b ∈ l₂, ∃ a ∈ l₁, R a b := by
  intro l₁ l₂ h
  induction h with
  | nil =>
    intro b hb
    cases hb
  | cons hr _ ih =>
    intro b hb
    rcases List.mem_cons.mp hb with rfl | hb
    · exact ⟨_, List.mem_cons_self _ _, hr⟩
    · obtain ⟨a, ha, hra⟩ := ih b hb
      exact ⟨a, List.mem_cons_of_mem _ ha, hra⟩

theorem forall₂_map_id {P : Operation → Operation → Prop} :
    ∀ {l₁ l₂ : List Operation},
      List.Forall₂ (fun n o => n.id = o.id ∧ P n o) l₁ l₂ →
      l₁.map (fun o => o.id) = l₂.map (fun o => o.id) := by
  intro l₁ l₂ h
  induction h with
  | nil => rfl
  | cons hr _ ih =>
    rw [List.map_cons, List.map_cons, hr.1, ih]

theorem marshal_func_hash (op : Operation) :
    (Operation.marshal op).func.hash = op.func.hash := rfl

theorem syncPhase2_skip (oldOps : OpsCollection) (oldGraph : Graph) :
    ∀ (ops : List Operation) (st : SyncState),
      (∀ op ∈ ops, ∃ oldOp,
        assocGet oldOps.lookup
          (((st.arg.value.find? (fun o => o.id = op.id)).getD op).id) = some oldOp ∧
        ((st.arg.value.find? (fun o => o.id = op.id)).getD op).func.hash =
          oldOp.func.hash) →
      syncPhase2 oldOps oldGraph ops st = .ok st := by
  intro ops
  induction ops with
  | nil => intro st _; rfl
  | cons op rest ih =>
    intro st h
    obtain ⟨oldOp, hget, hhash⟩ := h op (List.mem_cons_self op rest)
    simp only [syncPhase2, hget, marshal_func_hash, hhash, ne_eq, not_true_eq_false,
      if_false]
    exact ih st (fun o ho => h o (List.mem_cons_of_mem op ho))

theorem syncPhase3_skip : ∀ (ops : List Operation) (st : SyncState),
    (∀ op ∈ ops, (assocGet st.arg.lookup op.id).isSome = true) →
    syncPhase3 ops st = st := by
  intro ops
  induction ops with
  | nil => intro st _; rfl
  | cons op rest ih =>
    intro st h
    obtain ⟨x, hx⟩ := Option.isSome_iff_exists.mp (h op (List.mem_cons_self op rest))
    simp only [syncPhase3, hx]
    exact ih st (fun o ho => h o (List.mem_cons_of_mem op ho))

/-! ### Claim C4 — sync against an identical workflow -/

/-- Callable for the C4 counterexample. -/
def c4Fn : Callable := ⟨"fa", fun _ _ => .ok Val.null⟩

/-- Operation with a cached `null` output value (a JSON-representable
value: `JSON.stringify(null) = "null"`). -/
def c4Op : Operation := Operation.make "a" (.inr c4Fn) (some ⟨"ha", Val.null⟩)

/-- The old workflow of the C4 counterexample. -/
def c4Old : Workflow := Workflow.make ⟨["a"], []⟩ [c4Op]

/-- A structurally and functionally identical workflow: same graph, same
operation id, same callable (hence the same function hash). -/
def c4New : Workflow :=
  Workflow.make ⟨["a"], []⟩ [Operation.make "a" (.inr c4Fn) none]

/-- State of `c4Op` after sync's internal clone: the cached `null` has
been replaced by the `"{}"` placeholder, decoded as the empty object. -/
def c4ClonedOp : Operation :=
  ⟨"a", OperationFunction.make "a" c4Fn, some ⟨"ha", Val.obj []⟩⟩

/-- C4 (counterexample): syncing with a structurally and functionally
identical workflow does NOT leave every cache unchanged — an operation
whose cached value is `null` (JSON-representable) comes out of the sync
with the empty object instead, because the internal clone serializes a
nullish cached value as the `"{}"` placeholder. -/
theorem c4_sync_identical_alters_null_cache :
    assocGet c4Old.operations.lookup "a" = some c4Op
    ∧ c4Op.cache = some ⟨"ha", Val.null⟩
    ∧ Workflow.sync c4Old c4New =
        .ok (⟨c4New.graph, ⟨[c4ClonedOp], [("a", c4ClonedOp)]⟩⟩,
          ⟨c4New.graph, c4New.operations⟩)
    ∧ c4ClonedOp.cache = some ⟨"ha", Val.obj []⟩
    ∧ Val.obj [] ≠ Val.null :=
  ⟨rfl, rfl, rfl, rfl, by decide⟩

/-- C4 (amended): for every workflow `old` (built by the public API: each
function reference carries its operation's id, ids are unique, the lookup
agrees with the array) whose cached values are JSON-representable and
non-null, and every workflow `new` that is structurally and functionally
identical (same graph topology is irrelevant to sync's operation pass;
pointwise same operation ids and same function hashes), `old.sync(new)`
succeeds and leaves every operation with its cache content and its done
flag unchanged. -/
theorem c4_sync_identical_preserves_caches
    (old newW : Workflow)
    (hfid : ∀ op ∈ old.operations.value, op.func.id = op.id)
    (hnodup : (old.operations.value.map (fun o => o.id)).Nodup)
    (hlkOld : old.operations.lookup = buildLookup old.operations.value)
    (hlkNew : newW.operations.lookup = buildLookup newW.operations.value)
    (hnonnull : ∀ op ∈ old.operations.value, ∀ c, op.cache = some c → c.value ≠ Val.null)
    (hcorr : List.Forall₂ (fun nOp oOp => nOp.id = oOp.id ∧ nOp.func.hash = oOp.func.hash)
      newW.operations.value old.operations.value) :
    ∃ w' arg', Workflow.sync old newW = .ok (w', arg') ∧
      arg'.operations = newW.operations ∧
      w'.graph = newW.graph ∧
      ∀ idq op, assocGet old.operations.lookup idq = some op →
        ∃ op', assocGet w'.operations.lookup idq = some op' ∧
          op'.cache = op.cache ∧ op'.done = op.done := by
  have hNodupNew : (newW.operations.value.map (fun o => o.id)).Nodup := by
    rw [forall₂_map_id hcorr]
    exact hnodup
  have hclone := workflow_clone old hfid hnodup
  have hskipHyp : ∀ op ∈ newW.operations.value, ∃ oldOp,
      assocGet old.operations.lookup
        (((newW.operations.value.find? (fun o => o.id = op.id)).getD op).id) = some oldOp ∧
      ((newW.operations.value.find? (fun o => o.id = op.id)).getD op).func.hash =
        oldOp.func.hash := by
    intro op hop
    rw [find?_id_self newW.operations.value op hop hNodupNew]
    simp only [Option.getD_some]
    obtain ⟨oOp, hmem, hid, hhash⟩ := forall₂_exists_left hcorr op hop
    refine ⟨oOp, ?_, hhash⟩
    rw [hlkOld, hid]
    exact buildLookup_get_mem old.operations.value oOp hmem hnodup
  have hskip2 : syncPhase2 old.operations old.graph newW.operations.value
      ⟨(Workflow.make old.graph (old.operations.value.map cloneOp)).operations,
       newW.operations, []⟩ =
      .ok ⟨(Workflow.make old.graph (old.operations.value.map cloneOp)).operations,
        newW.operations, []⟩ :=
    syncPhase2_skip old.operations old.graph newW.operations.value _ hskipHyp
  have hskip3 : syncPhase3 old.operations.value
      ⟨(Workflow.make old.graph (old.operations.value.map cloneOp)).operations,
       newW.operations, []⟩ =
      ⟨(Workflow.make old.graph (old.operations.value.map cloneOp)).operations,
       newW.operations, []⟩ := by
    refine syncPhase3_skip old.operations.value _ ?_
    intro op hop
    obtain ⟨nOp, hmem, hid, _⟩ := forall₂_exists_right hcorr op hop
    have := buildLookup_get_mem newW.operations.value nOp hmem hNodupNew
    rw [hlkNew]
    rw [hid] at this
    rw [this]
    rfl
  refine ⟨⟨newW.graph, (Workflow.make old.graph (old.operations.value.map cloneOp)).operations⟩,
    ⟨newW.graph, newW.operations⟩, ?_, rfl, rfl, ?_⟩
  · simp only [Workflow.sync, hclone, hskip2, hskip3]
  · intro idq op hget
    rw [hlkOld] at hget
    obtain ⟨hmem, hid⟩ := buildLookup_get_some old.operations.value idq op hnodup hget
    have hmem' : cloneOp op ∈ old.operations.value.map cloneOp :=
      List.mem_map.mpr ⟨op, hmem, rfl⟩
    have hnodup' : ((old.operations.value.map cloneOp).map (fun o => o.id)).Nodup := by
      rw [map_id_map_cloneOp]
      exact hnodup
    have hlk := buildLookup_get_mem (old.operations.value.map cloneOp) (cloneOp op)
      hmem' hnodup'
    rw [cloneOp_id, hid] at hlk
    have hcache := cloneOp_cache_of_nonnull op (hnonnull op hmem)
    refine ⟨cloneOp op, hlk, hcache, ?_⟩
    unfold Operation.done
    rw [hcache]

theorem clear_cache (op : Operation) : (Operation.clear op).cache = none := rfl

theorem clear_id (op : Operation) : (Operation.clear op).id = op.id := rfl

theorem clear_clear (op : Operation) :
    Operation.clear (Operation.clear op) = Operation.clear op := rfl

theorem option_map_clear_clear (x : Option Operation) :
    (x.map Operation.clear).map Operation.clear = x.map Operation.clear := by
  cases x <;> rfl

theorem option_map_clear_comp (x : Option Operation) :
    Option.map (Operation.clear ∘ Operation.clear) x = Option.map Operation.clear x := by
  cases x <;> rfl

theorem assocGet_map_entry {α : Type} (f : α → α) (id : String) :
    ∀ (l : List (String × α)) (k : String),
      assocGet (l.map (fun p => if p.1 = id then (p.1, f p.2) else p)) k =
        if k = id then (assocGet l k).map f else assocGet l k := by
  intro l
  induction l with
  | nil =>
    intro k
    by_cases h : k = id
    · rw [if_pos h]; rfl
    · rw [if_neg h]; rfl
  | cons p rest ih =>
    intro k
    by_cases hpk : p.1 = k
    · by_cases hpid : p.1 = id
      · have hkid : k = id := hpk ▸ hpid
        rw [if_pos hkid]
        unfold assocGet
        rw [List.map_cons, if_pos hpid]
        rw [List.find?_cons_of_pos _ (by simpa using hpk),
          List.find?_cons_of_pos _ (by simpa using hpk)]
        rfl
      · have hkid : ¬ k = id := fun h => hpid (hpk.symm ▸ h)
        rw [if_neg hkid]
        unfold assocGet
        rw [List.map_cons, if_neg hpid]
        rw [List.find?_cons_of_pos _ (by simpa using hpk),
          List.find?_cons_of_pos _ (by simpa using hpk)]
    · have hkey : (if p.1 = id then (p.1, f p.2) else p).1 = p.1 := by
        by_cases hpid : p.1 = id
        · rw [if_pos hpid]
        · rw [if_neg hpid]
      unfold assocGet
      rw [List.map_cons]
      rw [List.find?_cons_of_neg _ (by simpa [hkey] using hpk),
        List.find?_cons_of_neg _ (by simpa using hpk)]
      exact ih k

theorem clearById_lookup_get (c : OpsCollection) (id k : String) :
    assocGet (c.clearById id).lookup k =
      if k = id then (assocGet c.lookup k).map Operation.clear
      else assocGet c.lookup k := by
  unfold OpsCollection.clearById
  exact assocGet_map_entry Operation.clear id c.lookup k

theorem clearById_value (c : OpsCollection) (id : String) :
    (c.clearById id).value =
      c.value.map (fun o => if o.id = id then o.clear else o) := rfl

theorem clearById_shared (c : OpsCollection) (id : String) :
    (c.clearById id).lookup = c.lookup.map
      (fun p => if p.1 = id then (p.1, p.2.clear) else p) := rfl

theorem updateOp_lookup_get (c : OpsCollection) (op : Operation) (k : String) :
    assocGet (c.updateOp op).lookup k =
      if k = op.id then some op else assocGet c.lookup k := by
  unfold OpsCollection.updateOp
  by_cases h : k = op.id
  · rw [if_pos h, h]
    exact assocGet_assocSet_self c.lookup op.id op
  · rw [if_neg h]
    exact assocGet_assocSet_ne c.lookup op.id k op (fun hh => h hh.symm)

theorem pushOp_lookup_get (c : OpsCollection) (op : Operation) (k : String) :
    assocGet (c.pushOp op).lookup k =
      if k = op.id then some op else assocGet c.lookup k := by
  unfold OpsCollection.pushOp
  by_cases h : k = op.id
  · rw [if_pos h, h]
    exact assocGet_assocSet_self c.lookup op.id op
  · rw [if_neg h]
    exact assocGet_assocSet_ne c.lookup op.id k op (fun hh => h hh.symm)

theorem find?_map_preserve_id (f : Operation → Operation)
    (hid : ∀ o, (f o).id = o.id) :
    ∀ (l : List Operation) (k : String),
      (l.map f).find? (fun o => o.id = k) = (l.find? (fun o => o.id = k)).map f := by
  intro l
  induction l with
  | nil => intro k; rfl
  | cons o rest ih =>
    intro k
    by_cases h : o.id = k
    · rw [List.map_cons, List.find?_cons_of_pos _ (by simpa [hid] using h),
        List.find?_cons_of_pos _ (by simpa using h)]
      rfl
    · rw [List.map_cons, List.find?_cons_of_neg _ (by simpa [hid] using h),
        List.find?_cons_of_neg _ (by simpa using h)]
      exact ih k

theorem mem_id_unique {ops : List Operation}
    (hnodup : (ops.map (fun o => o.id)).Nodup) {o1 o2 : Operation}
    (h1 : o1 ∈ ops) (h2 : o2 ∈ ops) (hid : o1.id = o2.id) : o1 = o2 := by
  have f1 := find?_id_self ops o1 h1 hnodup
  have f2 := find?_id_self ops o2 h2 hnodup
  rw [hid] at f1
  rw [f1] at f2
  exact Option.some.injEq _ _ ▸ f2 ▸ rfl

theorem reaches_mem_nodes {g : Graph} (hwf : g.wf = true) {a x : String}
    (ha : a ∈ g.nodes) (hr : g.Reaches a x) : x ∈ g.nodes := by
  induction hr with
  | refl => exact ha
  | snoc _ he _ => exact (Graph.wf_mem_edges hwf he).2

theorem syncClearDown_ok_of_isSome :
    ∀ (downIds : List String) (st : SyncState),
      (∀ d ∈ downIds, (assocGet st.work.lookup d).isSome = true) →
      ∃ st', syncClearDown st downIds = .ok st' := by
  intro downIds
  induction downIds with
  | nil => intro st _; exact ⟨st, rfl⟩
  | cons d rest ih =>
    intro st hsome
    obtain ⟨x, hx⟩ := Option.isSome_iff_exists.mp (hsome d (List.mem_cons_self d rest))
    have hstep : syncClearDown st (d :: rest) =
        syncClearDown ⟨st.work.clearById d,
          if st.shared.contains d then st.arg.clearById d else st.arg,
          st.shared⟩ rest := by
      simp only [syncClearDown, nonEmpty, hx]
    have hsome1 : ∀ d' ∈ rest,
        (assocGet (st.work.clearById d).lookup d').isSome = true := by
      intro d' hd'
      have := hsome d' (List.mem_cons_of_mem d hd')
      rw [clearById_lookup_get]
      by_cases h : d' = d
      · rw [if_pos h]
        cases hxx : assocGet st.work.lookup d' with
        | none => rw [hxx] at this; cases this
        | some y => rfl
      · rw [if_neg h]
        exact this
    obtain ⟨st', hrun⟩ := ih ⟨st.work.clearById d,
      if st.shared.contains d then st.arg.clearById d else st.arg, st.shared⟩ hsome1
    exact ⟨st', by rw [hstep]; exact hrun⟩

theorem syncClearDown_ok_spec :
    ∀ (downIds : List String) (st st2 : SyncState),
      syncClearDown st downIds = .ok st2 →
      st2.shared = st.shared ∧
      (∀ k, assocGet st2.work.lookup k = if k ∈ downIds
        then (assocGet st.work.lookup k).map Operation.clear
        else assocGet st.work.lookup k) ∧
      (∀ k, assocGet st2.arg.lookup k = if k ∈ downIds ∧ k ∈ st.shared
        then (assocGet st.arg.lookup k).map Operation.clear
        else assocGet st.arg.lookup k) ∧
      st2.arg.value = st.arg.value.map
        (fun o => if o.id ∈ downIds ∧ o.id ∈ st.shared then o.clear else o) := by
  intro downIds
  induction downIds with
  | nil =>
    intro st st2 hrun
    have hst : st = st2 := by
      have : (Except.ok st : Except JsError SyncState) = .ok st2 := hrun
      cases this
      rfl
    subst hst
    refine ⟨rfl, ?_, ?_, ?_⟩
    · intro k
      rw [if_neg (List.not_mem_nil k)]
    · intro k
      rw [if_neg (fun h => List.not_mem_nil k h.1)]
    · rw [show st.arg.value.map (fun o =>
        if o.id ∈ ([] : List String) ∧ o.id ∈ st.shared then o.clear else o) =
          st.arg.value.map (fun o => o) from
        List.map_congr_left (fun o _ => by rw [if_neg (fun h => List.not_mem_nil o.id h.1)])]
      rw [List.map_id']
  | cons d rest ih =>
    intro st st2 hrun
    match hx : assocGet st.work.lookup d with
    | none =>
      exfalso
      have hbad : (Except.error (JsError.unexpectedEmptyValue
          ("unexpected empty value: " ++ "unspecified")) :
          Except JsError SyncState) = .ok st2 := by
        rw [← hrun]
        simp only [syncClearDown, nonEmpty, hx]
      cases hbad
    | some x =>
      have hstep : syncClearDown st (d :: rest) =
          syncClearDown ⟨st.work.clearById d,
            if st.shared.contains d then st.arg.clearById d else st.arg,
            st.shared⟩ rest := by
        simp only [syncClearDown, nonEmpty, hx]
      rw [hstep] at hrun
      set st1 : SyncState := ⟨st.work.clearById d,
        if st.shared.contains d then st.arg.clearById d else st.arg, st.shared⟩ with hst1
      obtain ⟨hshared, hwork, harg, hargval⟩ := ih st1 st2 hrun
      have hshared1 : st1.shared = st.shared := rfl
      refine ⟨by rw [hshared, hshared1], ?_, ?_, ?_⟩
      · intro k
        rw [hwork k]
        have hw1 : assocGet st1.work.lookup k =
            if k = d then (assocGet st.work.lookup k).map Operation.clear
            else assocGet st.work.lookup k := clearById_lookup_get st.work d k
        by_cases hkd : k = d
        · by_cases hkr : k ∈ rest
          · rw [if_pos hkr, hw1, if_pos hkd, if_pos (List.mem_cons.mpr (Or.inl hkd))]
            exact option_map_clear_clear _
          · rw [if_neg hkr, hw1, if_pos hkd, if_pos (List.mem_cons.mpr (Or.inl hkd))]
        · by_cases hkr : k ∈ rest
          · rw [if_pos hkr, hw1, if_neg hkd, if_pos (List.mem_cons.mpr (Or.inr hkr))]
          · rw [if_neg hkr, hw1, if_neg hkd,
              if_neg (fun h => (List.mem_cons.mp h).elim hkd hkr)]
      · intro k
        have harg1 : assocGet st1.arg.lookup k =
            if k = d ∧ k ∈ st.shared then (assocGet st.arg.lookup k).map Operation.clear
            else assocGet st.arg.lookup k := by
          rw [hst1]
          show assocGet (if st.shared.contains d then st.arg.clearById d else st.arg).lookup k = _
          by_cases hd : st.shared.contains d
          · rw [if_pos hd, clearById_lookup_get]
            by_cases hkd : k = d
            · rw [if_pos hkd, if_pos ⟨hkd, hkd ▸ (by simpa [List.contains, List.elem_eq_mem] using hd)⟩]
            · rw [if_neg hkd, if_neg (fun h => hkd h.1)]
          · rw [if_neg hd]
            by_cases hkd : k = d
            · rw [if_neg (fun h => hd (by subst hkd; simpa [List.contains, List.elem_eq_mem] using h.2))]
            · rw [if_neg (fun h => hkd h.1)]
        rw [harg k, hshared1, harg1]
        by_cases h1 : k = d
        · subst h1
          by_cases h2 : k ∈ st.shared
          · by_cases h3 : k ∈ rest
            · simp [h2, h3, option_map_clear_clear, option_map_clear_comp]
            · simp [h2, h3]
          · simp [h2]
        · by_cases h2 : k ∈ st.shared
          · by_cases h3 : k ∈ rest
            · simp [h1, h2, h3]
            · simp [h1, h2, h3]
          · simp [h2]
      · rw [hargval, hshared1, hst1]
        show (if st.shared.contains d then st.arg.clearById d else st.arg).value.map _ =
          st.arg.value.map _
        by_cases hd : st.shared.contains d
        · rw [if_pos hd, clearById_value, List.map_map]
          refine List.map_congr_left ?_
          intro o _
          show (if (if o.id = d then o.clear else o).id ∈ rest ∧
              (if o.id = d then o.clear else o).id ∈ st.shared then
              (if o.id = d then o.clear else o).clear else (if o.id = d then o.clear else o)) = _
          by_cases hod : o.id = d
          · rw [if_pos hod]
            have hids : (Operation.clear o).id = o.id := rfl
            have hds : o.id ∈ st.shared := by
              rw [hod]
              simpa [List.contains, List.elem_eq_mem] using hd
            by_cases hor : o.id ∈ rest
            · rw [if_pos ⟨by rw [hids]; exact hor, by rw [hids]; exact hds⟩, clear_clear,
                if_pos ⟨List.mem_cons.mpr (Or.inr hor), hds⟩]
            · rw [if_neg (fun h => hor (by rw [hids] at h; exact h.1)),
                if_pos ⟨List.mem_cons.mpr (Or.inl hod), hds⟩]
          · rw [if_neg hod]
            by_cases hcond : o.id ∈ rest ∧ o.id ∈ st.shared
            · rw [if_pos hcond, if_pos ⟨List.mem_cons.mpr (Or.inr hcond.1), hcond.2⟩]
            · rw [if_neg hcond,
                if_neg (fun h => hcond ⟨(List.mem_cons.mp h.1).elim (fun hh => absurd hh hod) (fun hh => hh), h.2⟩)]
        · rw [if_neg hd]
          refine List.map_congr_left ?_
          intro o _
          by_cases hcond : o.id ∈ rest ∧ o.id ∈ st.shared
          · rw [if_pos hcond, if_pos ⟨List.mem_cons.mpr (Or.inr hcond.1), hcond.2⟩]
          · by_cases hod : o.id = d
            · rw [if_neg hcond, if_neg (fun h => hd (by
                rw [← hod] at *
                simpa [List.contains, List.elem_eq_mem] using h.2))]
            · rw [if_neg hcond,
                if_neg (fun h => hcond ⟨(List.mem_cons.mp h.1).elim (fun hh => absurd hh hod) (fun hh => hh), h.2⟩)]

theorem syncPhase2_skip_prefix (oldOps : OpsCollection) (oldGraph : Graph) :
    ∀ (ops rest2 : List Operation) (st : SyncState),
      (∀ op ∈ ops, ∃ oldOp,
        assocGet oldOps.lookup
          (((st.arg.value.find? (fun o => o.id = op.id)).getD op).id) = some oldOp ∧
        ((st.arg.value.find? (fun o => o.id = op.id)).getD op).func.hash =
          oldOp.func.hash) →
      syncPhase2 oldOps oldGraph (ops ++ rest2) st = syncPhase2 oldOps oldGraph rest2 st := by
  intro ops rest2
  induction ops with
  | nil => intro st _; rfl
  | cons op rest ih =>
    intro st h
    obtain ⟨oldOp, hget, hhash⟩ := h op (List.mem_cons_self op rest)
    rw [List.cons_append]
    simp only [syncPhase2, hget, marshal_func_hash, hhash, ne_eq, not_true_eq_false,
      if_false]
    exact ih st (fun o ho => h o (List.mem_cons_of_mem op ho))

theorem nodup_split_ne {pre post : List Operation} {nA : Operation}
    (h : (((pre ++ nA :: post).map (fun o => o.id))).Nodup) :
    (∀ op ∈ pre, op.id ≠ nA.id) ∧ (∀ op ∈ post, op.id ≠ nA.id) := by
  rw [List.map_append, List.map_cons, List.nodup_append] at h
  constructor
  · intro op hop heq
    exact h.2.2 (List.mem_map.mpr ⟨op, hop, rfl⟩) (heq ▸ List.mem_cons_self _ _)
  · intro op hop heq
    have := (List.nodup_cons.mp h.2.1).1
    exact this (heq ▸ List.mem_map.mpr ⟨op, hop, rfl⟩)

/-! ### Claim C2 — sync invalidation -/

/-- C2 (amended): let `old` be a workflow built by the public API (unique
ids, function-reference ids matching operation ids, lookup agreeing with
the array, every graph node registered, well-formed graph) whose cached
values are non-null, containing a chain `a → b → c`; let `new` be
identical except that operation `a`'s function hash differs.  Then
`old.sync(new)` succeeds, every operation reachable from `a` in the old
graph (including `a`, `b` and `c`) ends up with no cache (`done` false),
and every operation not reachable from `a` keeps its cache and `done`
state unchanged. -/
theorem c2_sync_invalidates_downstream
    (old newW : Workflow) (a b c : String)
    (hfid : ∀ op ∈ old.operations.value, op.func.id = op.id)
    (hnodup : (old.operations.value.map (fun o => o.id)).Nodup)
    (hlkOld : old.operations.lookup = buildLookup old.operations.value)
    (hlkNew : newW.operations.lookup = buildLookup newW.operations.value)
    (hnonnull : ∀ op ∈ old.operations.value, ∀ cch, op.cache = some cch →
      cch.value ≠ Val.null)
    (hopsNodes : ∀ n ∈ old.graph.nodes, ∃ op ∈ old.operations.value, op.id = n)
    (hwf : old.graph.wf = true)
    (haNode : a ∈ old.graph.nodes)
    (hab : (a, b) ∈ old.graph.edges) (hbc : (b, c) ∈ old.graph.edges)
    (hcachedA : ∃ op ∈ old.operations.value, op.id = a ∧ op.cache.isSome = true)
    (hcachedB : ∃ op ∈ old.operations.value, op.id = b ∧ op.cache.isSome = true)
    (hcachedC : ∃ op ∈ old.operations.value, op.id = c ∧ op.cache.isSome = true)
    (hcorr : List.Forall₂ (fun nOp oOp => nOp.id = oOp.id ∧
        ((oOp.id ≠ a → nOp.func.hash = oOp.func.hash) ∧
         (oOp.id = a → ¬ nOp.func.hash = oOp.func.hash)))
      newW.operations.value old.operations.value) :
    ∃ w' arg', Workflow.sync old newW = .ok (w', arg') ∧
      w'.graph = newW.graph ∧
      (∀ x, old.graph.Reaches a x →
        ∃ op', assocGet w'.operations.lookup x = some op' ∧
          op'.cache = none ∧ op'.done = false) ∧
      (∀ x op, ¬ old.graph.Reaches a x →
        assocGet old.operations.lookup x = some op →
        ∃ op', assocGet w'.operations.lookup x = some op' ∧
          op'.cache = op.cache ∧ op'.done = op.done) := by
  -- basic bookkeeping
  have hNodupNew : (newW.operations.value.map (fun o => o.id)).Nodup := by
    rw [forall₂_map_id hcorr]
    exact hnodup
  have hclone := workflow_clone old hfid hnodup
  obtain ⟨oA, hoAmem, hoAid⟩ := hopsNodes a haNode
  -- the new workflow's operation with id a, and the split around it
  have hidsEq : newW.operations.value.map (fun o => o.id) =
      old.operations.value.map (fun o => o.id) := forall₂_map_id hcorr
  have haNewIds : a ∈ newW.operations.value.map (fun o => o.id) := by
    rw [hidsEq]
    exact List.mem_map.mpr ⟨oA, hoAmem, hoAid⟩
  obtain ⟨nA, hnAmem, hnAid⟩ := List.mem_map.mp haNewIds
  obtain ⟨pre, post, hsplit⟩ := List.append_of_mem hnAmem
  have hsplitNodup : ((pre ++ nA :: post).map (fun o => o.id)).Nodup := by
    rw [← hsplit]
    exact hNodupNew
  obtain ⟨hpreNe, hpostNe⟩ := nodup_split_ne hsplitNodup
  -- lookup of a in the old workflow
  have hgetA : assocGet old.operations.lookup nA.id = some oA := by
    rw [hlkOld, hnAid, ← hoAid]
    exact buildLookup_get_mem old.operations.value oA hoAmem hnodup
  -- the function hashes differ at a
  have hdiffA : ¬ nA.func.hash = oA.func.hash := by
    obtain ⟨oP, hoPmem, hid2, hP⟩ := forall₂_exists_left hcorr nA hnAmem
    have hoPa : oP.id = a := by rw [← hid2, hnAid]
    have : oP = oA := mem_id_unique hnodup hoPmem hoAmem (by rw [hoPa, hoAid])
    subst this
    exact hP.2 hoPa
  -- the preorder traversal of the old graph from a
  have hallA : ([nA.id].all (fun v => old.graph.hasNode v)) = true := by
    simp [Graph.hasNode, List.contains, List.elem_eq_mem, hnAid, haNode]
  have hpreA : old.graph.preorder [nA.id] =
      .ok (reachIter old.graph (old.graph.nodes.length + old.graph.edges.length + 1)
        (addNew [] [nA.id])) := by
    unfold Graph.preorder
    rw [if_pos hallA]
  have hdownMem : ∀ x,
      x ∈ reachIter old.graph (old.graph.nodes.length + old.graph.edges.length + 1)
        (addNew [] [nA.id]) ↔ old.graph.Reaches a x := by
    intro x
    rw [Graph.preorder_mem hpreA x]
    constructor
    · rintro ⟨r, hr, hre⟩
      rcases List.mem_cons.mp hr with rfl | hr
      · rw [← hnAid]; exact hre
      · cases hr
    · intro hre
      exact ⟨nA.id, List.mem_cons_self _ _, hnAid ▸ hre⟩
  set downIds := reachIter old.graph (old.graph.nodes.length + old.graph.edges.length + 1)
    (addNew [] [nA.id]) with hdownIds
  -- the working copy after the clone
  set W0ops : OpsCollection :=
    (Workflow.make old.graph (old.operations.value.map cloneOp)).operations with hW0
  have hW0get : ∀ x opx, opx ∈ old.operations.value → opx.id = x →
      assocGet W0ops.lookup x = some (cloneOp opx) := by
    intro x opx hmem hid
    have hmem' : cloneOp opx ∈ old.operations.value.map cloneOp :=
      List.mem_map.mpr ⟨opx, hmem, rfl⟩
    have hnodup' : ((old.operations.value.map cloneOp).map (fun o => o.id)).Nodup := by
      rw [map_id_map_cloneOp]
      exact hnodup
    have := buildLookup_get_mem (old.operations.value.map cloneOp) (cloneOp opx)
      hmem' hnodup'
    rw [cloneOp_id, hid] at this
    exact this
  -- the state fed into the downstream-invalidation loop
  set st0 : SyncState := ⟨W0ops, newW.operations, []⟩ with hst0
  set st1 : SyncState := ⟨st0.work.updateOp nA, st0.arg, st0.shared ++ [nA.id]⟩ with hst1
  have hsome1 : ∀ d ∈ downIds, (assocGet st1.work.lookup d).isSome = true := by
    intro d hd
    have hreach : old.graph.Reaches a d := (hdownMem d).mp hd
    have hdnode : d ∈ old.graph.nodes := reaches_mem_nodes hwf haNode hreach
    obtain ⟨opd, hopdmem, hopdid⟩ := hopsNodes d hdnode
    rw [hst1]
    show (assocGet (st0.work.updateOp nA).lookup d).isSome = true
    rw [updateOp_lookup_get]
    by_cases hda : d = nA.id
    · rw [if_pos hda]; rfl
    · rw [if_neg hda]
      rw [hst0]
      show (assocGet W0ops.lookup d).isSome = true
      rw [hW0get d opd hopdmem hopdid]
      rfl
  obtain ⟨st2, hclrRun⟩ := syncClearDown_ok_of_isSome downIds st1 hsome1
  obtain ⟨hshared2, hwork2, harg2, hargval2⟩ := syncClearDown_ok_spec downIds st1 st2 hclrRun
  -- skip hypotheses for the operations before and after a
  have hskipOf : ∀ (argval : List Operation) (op : Operation),
      op ∈ newW.operations.value → op.id ≠ a →
      (argval.find? (fun o => o.id = op.id)).getD op = op →
      ∃ oldOp, assocGet old.operations.lookup
          (((argval.find? (fun o => o.id = op.id)).getD op).id) = some oldOp ∧
        ((argval.find? (fun o => o.id = op.id)).getD op).func.hash = oldOp.func.hash := by
    intro argval op hmem hne hfind
    rw [hfind]
    obtain ⟨oOp, hoOpmem, hid2, hP⟩ := forall₂_exists_left hcorr op hmem
    refine ⟨oOp, ?_, ?_⟩
    · rw [hlkOld, hid2]
      exact buildLookup_get_mem old.operations.value oOp hoOpmem hnodup
    · exact hP.1 (fun h => hne (by rw [hid2, h]))
  have hpreHyp : ∀ op ∈ pre, ∃ oldOp,
      assocGet old.operations.lookup
        (((st0.arg.value.find? (fun o => o.id = op.id)).getD op).id) = some oldOp ∧
      ((st0.arg.value.find? (fun o => o.id = op.id)).getD op).func.hash =
        oldOp.func.hash := by
    intro op hop
    have hmem : op ∈ newW.operations.value := by
      rw [hsplit]
      exact List.mem_append_left _ hop
    have hne : op.id ≠ a := by
      rw [← hnAid]
      exact hpreNe op hop
    refine hskipOf st0.arg.value op hmem hne ?_
    show ((newW.operations.value.find? (fun o => o.id = op.id)).getD op) = op
    rw [find?_id_self newW.operations.value op hmem hNodupNew]
    rfl
  have hfClear : ∀ o : Operation,
      ((fun o => if o.id ∈ downIds ∧ o.id ∈ st1.shared then o.clear else o) o).id = o.id := by
    intro o
    show (if o.id ∈ downIds ∧ o.id ∈ st1.shared then o.clear else o).id = o.id
    by_cases h : o.id ∈ downIds ∧ o.id ∈ st1.shared
    · rw [if_pos h]; rfl
    · rw [if_neg h]
  have hpostHyp : ∀ op ∈ post, ∃ oldOp,
      assocGet old.operations.lookup
        (((st2.arg.value.find? (fun o => o.id = op.id)).getD op).id) = some oldOp ∧
      ((st2.arg.value.find? (fun o => o.id = op.id)).getD op).func.hash =
        oldOp.func.hash := by
    intro op hop
    have hmem : op ∈ newW.operations.value := by
      rw [hsplit]
      exact List.mem_append_right _ (List.mem_cons_of_mem nA hop)
    have hne : op.id ≠ a := by
      rw [← hnAid]
      exact hpostNe op hop
    refine hskipOf st2.arg.value op hmem hne ?_
    rw [hargval2]
    have hargv1 : st1.arg.value = newW.operations.value := rfl
    rw [hargv1]
    rw [find?_map_preserve_id _ hfClear newW.operations.value op.id]
    rw [find?_id_self newW.operations.value op hmem hNodupNew]
    show (some (if op.id ∈ downIds ∧ op.id ∈ st1.shared then op.clear else op)).getD op = op
    have hnotin : ¬ (op.id ∈ downIds ∧ op.id ∈ st1.shared) := by
      rintro ⟨_, hsh⟩
      have h1 : op.id ∈ ([] : List String) ++ [nA.id] := hsh
      have h2 : op.id = nA.id := by simpa using h1
      exact hne (by rw [h2, hnAid])
    rw [if_neg hnotin]
    rfl
  -- run phase 2
  have hfindA : st0.arg.value.find? (fun o => o.id = nA.id) = some nA := by
    show newW.operations.value.find? (fun o => o.id = nA.id) = some nA
    exact find?_id_self newW.operations.value nA hnAmem hNodupNew
  have hstep : syncPhase2 old.operations old.graph (nA :: post) st0 =
      (match syncClearDown st1 downIds with
       | .error e => .error e
       | .ok st' => syncPhase2 old.operations old.graph post st') := by
    simp only [syncPhase2, hfindA, Option.getD_some, hgetA, marshal_func_hash, ne_eq,
      hpreA, hdownIds]
    rw [if_pos hdiffA]
  have hphase2 : syncPhase2 old.operations old.graph newW.operations.value st0 = .ok st2 := by
    rw [hsplit, syncPhase2_skip_prefix old.operations old.graph pre (nA :: post) st0 hpreHyp,
      hstep, hclrRun]
    exact syncPhase2_skip old.operations old.graph post st2 hpostHyp
  -- phase 3 removes nothing
  have hphase3 : syncPhase3 old.operations.value st2 = st2 := by
    refine syncPhase3_skip old.operations.value st2 ?_
    intro op hop
    obtain ⟨nOp, hnOpmem, hid2, _⟩ := forall₂_exists_right hcorr op hop
    have hnget : assocGet newW.operations.lookup op.id = some nOp := by
      rw [hlkNew, ← hid2]
      exact buildLookup_get_mem newW.operations.value nOp hnOpmem hNodupNew
    have harg1 : assocGet st1.arg.lookup op.id = some nOp := hnget
    rw [harg2 op.id]
    by_cases h : op.id ∈ downIds ∧ op.id ∈ st1.shared
    · rw [if_pos h, harg1]
      rfl
    · rw [if_neg h, harg1]
      rfl
  -- assemble
  refine ⟨⟨newW.graph, st2.work⟩, ⟨newW.graph, st2.arg⟩, ?_, rfl, ?_, ?_⟩
  · simp only [Workflow.sync, hclone, hst0, hphase2, hphase3]
  · intro x hreach
    have hx : x ∈ downIds := (hdownMem x).mpr hreach
    have hwx := hwork2 x
    rw [if_pos hx] at hwx
    have hst1x : assocGet st1.work.lookup x =
        if x = nA.id then some nA else assocGet W0ops.lookup x := updateOp_lookup_get _ _ _
    by_cases hxa : x = nA.id
    · rw [if_pos hxa] at hst1x
      rw [hst1x] at hwx
      exact ⟨nA.clear, hwx, rfl, rfl⟩
    · rw [if_neg hxa] at hst1x
      have hxnode : x ∈ old.graph.nodes := reaches_mem_nodes hwf haNode hreach
      obtain ⟨opx, hopxmem, hopxid⟩ := hopsNodes x hxnode
      rw [hst1x, hW0get x opx hopxmem hopxid] at hwx
      exact ⟨(cloneOp opx).clear, hwx, rfl, rfl⟩
  · intro x op hnreach hget
    have hx : x ∉ downIds := fun h => hnreach ((hdownMem x).mp h)
    have hwx := hwork2 x
    rw [if_neg hx] at hwx
    have hxa : ¬ x = nA.id := by
      intro h
      apply hnreach
      rw [h, hnAid]
      exact Graph.Reaches.refl a
    have hst1x : assocGet st1.work.lookup x =
        if x = nA.id then some nA else assocGet W0ops.lookup x := updateOp_lookup_get _ _ _
    rw [if_neg hxa] at hst1x
    rw [hlkOld] at hget
    obtain ⟨hopmem, hopid⟩ := buildLookup_get_some old.operations.value x op hnodup hget
    rw [hst1x, hW0get x op hopmem hopid] at hwx
    have hcache := cloneOp_cache_of_nonnull op (hnonnull op hopmem)
    refine ⟨cloneOp op, hwx, hcache, ?_⟩
    unfold Operation.done
    rw [hcache]

instance : Inhabited Workflow := ⟨⟨⟨[], []⟩, ⟨[], []⟩⟩⟩

/-- Helper to build the concrete C2 operations. -/
def c2mk (id src : String) (cache : Option OperationCache) : Operation :=
  Operation.make id (.inr ⟨src, fun _ _ => .ok (Val.str id)⟩) cache

/-- The graph shared by the C2 workflows: `s → a → b → c`, `s → d → c`. -/
def c2Graph : Graph :=
  ⟨["s", "a", "b", "c", "d"],
   [("s", "a"), ("a", "b"), ("b", "c"), ("s", "d"), ("d", "c")]⟩

/-- Old workflow for the C2 counterexample: chain `a → b → c` fully
cached, and a sibling `d` (not downstream of `a`) cached with value
`null`. -/
def c2Old : Workflow := Workflow.make c2Graph
  [c2mk "s" "fs" (some ⟨"hs", Val.str "vs"⟩),
   c2mk "a" "fa" (some ⟨"ha", Val.str "va"⟩),
   c2mk "b" "fb" (some ⟨"hb", Val.str "vb"⟩),
   c2mk "c" "fc" (some ⟨"hc", Val.str "vc"⟩),
   c2mk "d" "fd" (some ⟨"hd", Val.null⟩)]

/-- New workflow for the C2 counterexample: identical except `a`'s
callable (hence its function hash) differs. -/
def c2New : Workflow := Workflow.make c2Graph
  [c2mk "s" "fs" none, c2mk "a" "fa2" none, c2mk "b" "fb" none,
   c2mk "c" "fc" none, c2mk "d" "fd" none]

/-- The result pair of the C2 counterexample sync. -/
def c2SyncPair : Workflow × Workflow := ((Workflow.sync c2Old c2New).toOption).get!

/-- C2 (counterexample): `d` is not reachable downstream of `a` in the
old graph and was cached with value `null` before the sync, yet after
`old.sync(new)` its cache holds the empty object — the claim's "keeps its
cache unchanged" fails for null cached values, which sync's internal
clone rewrites through the `"{}"` placeholder. -/
theorem c2_sync_null_sibling_cache_changes :
    (¬ c2Old.graph.Reaches "a" "d")
    ∧ (∃ op, assocGet c2Old.operations.lookup "d" = some op ∧
        op.cache = some ⟨"hd", Val.null⟩)
    ∧ Workflow.sync c2Old c2New = .ok (c2SyncPair.1, c2SyncPair.2)
    ∧ (∃ op', assocGet c2SyncPair.1.operations.lookup "d" = some op' ∧
        op'.cache = some ⟨"hd", Val.obj []⟩)
    ∧ (OperationCache.mk "hd" (Val.obj []) : OperationCache) ≠ ⟨"hd", Val.null⟩ := by
  refine ⟨?_, ⟨_, rfl, rfl⟩, rfl, ⟨_, rfl, rfl⟩, by decide⟩
  intro hr
  have hpre : c2Old.graph.preorder ["a"] = .ok ["a", "b", "c"] := rfl
  have hmem := (Graph.preorder_mem hpre "d").mpr ⟨"a", List.mem_cons_self _ _, hr⟩
  simp at hmem

/-- Concrete operations for the C2 witness (all cached values non-null). -/
def c2wOpS : Operation := c2mk "s" "fs" (some ⟨"hs", Val.str "vs"⟩)

/-- Concrete operation `a` for the C2 witness. -/
def c2wOpA : Operation := c2mk "a" "fa" (some ⟨"ha", Val.str "va"⟩)

/-- Concrete operation `b` for the C2 witness. -/
def c2wOpB : Operation := c2mk "b" "fb" (some ⟨"hb", Val.str "vb"⟩)

/-- Concrete operation `c` for the C2 witness. -/
def c2wOpC : Operation := c2mk "c" "fc" (some ⟨"hc", Val.str "vc"⟩)

/-- Concrete operation `d` for the C2 witness. -/
def c2wOpD : Operation := c2mk "d" "fd" (some ⟨"hd", Val.str "vd"⟩)

/-- Old workflow for the C2 witness. -/
def c2wOld : Workflow := Workflow.make c2Graph [c2wOpS, c2wOpA, c2wOpB, c2wOpC, c2wOpD]

/-- New workflow for the C2 witness: only `a`'s callable differs. -/
def c2wNew : Workflow := Workflow.make c2Graph
  [c2mk "s" "fs" none, c2mk "a" "fa2" none, c2mk "b" "fb" none,
   c2mk "c" "fc" none, c2mk "d" "fd" none]

/-- Witness for `c2_sync_invalidates_downstream` at the concrete chain
workflow with the sibling branch `d`. -/
theorem c2_sync_invalidates_downstream_witness :
    ∃ w' arg', Workflow.sync c2wOld c2wNew = .ok (w', arg') ∧
      w'.graph = c2wNew.graph ∧
      (∀ x, c2wOld.graph.Reaches "a" x →
        ∃ op', assocGet w'.operations.lookup x = some op' ∧
          op'.cache = none ∧ op'.done = false) ∧
      (∀ x op, ¬ c2wOld.graph.Reaches "a" x →
        assocGet c2wOld.operations.lookup x = some op →
        ∃ op', assocGet w'.operations.lookup x = some op' ∧
          op'.cache = op.cache ∧ op'.done = op.done) :=
  c2_sync_invalidates_downstream c2wOld c2wNew "a" "b" "c"
    (by
      intro op hop
      simp only [c2wOld, Workflow.make, List.mem_cons, List.not_mem_nil, or_false] at hop
      rcases hop with rfl | rfl | rfl | rfl | rfl <;> rfl)
    (by decide)
    rfl
    rfl
    (by
      intro op hop cch hc
      simp only [c2wOld, Workflow.make, List.mem_cons, List.not_mem_nil, or_false] at hop
      rcases hop with rfl | rfl | rfl | rfl | rfl <;> (cases hc; decide))
    (by
      intro n hn
      simp only [c2wOld, Workflow.make, c2Graph, List.mem_cons, List.not_mem_nil,
        or_false] at hn
      rcases hn with rfl | rfl | rfl | rfl | rfl
      · exact ⟨c2wOpS, List.mem_cons_self _ _, rfl⟩
      · exact ⟨c2wOpA, List.mem_cons_of_mem _ (List.mem_cons_self _ _), rfl⟩
      · exact ⟨c2wOpB, List.mem_cons_of_mem _ (List.mem_cons_of_mem _
          (List.mem_cons_self _ _)), rfl⟩
      · exact ⟨c2wOpC, List.mem_cons_of_mem _ (List.mem_cons_of_mem _
          (List.mem_cons_of_mem _ (List.mem_cons_self _ _))), rfl⟩
      · exact ⟨c2wOpD, List.mem_cons_of_mem _ (List.mem_cons_of_mem _
          (List.mem_cons_of_mem _ (List.mem_cons_of_mem _ (List.mem_cons_self _ _)))), rfl⟩)
    (by decide)
    (by decide)
    (by decide)
    (by decide)
    ⟨c2wOpA, List.mem_cons_of_mem _ (List.mem_cons_self _ _), rfl, rfl⟩
    ⟨c2wOpB, List.mem_cons_of_mem _ (List.mem_cons_of_mem _ (List.mem_cons_self _ _)),
      rfl, rfl⟩
    ⟨c2wOpC, List.mem_cons_of_mem _ (List.mem_cons_of_mem _ (List.mem_cons_of_mem _
      (List.mem_cons_self _ _))), rfl, rfl⟩
    (List.Forall₂.cons ⟨rfl, fun _ => rfl, fun h => absurd h (by decide)⟩
      (List.Forall₂.cons ⟨rfl, fun h => absurd rfl h, fun _ => by decide⟩
        (List.Forall₂.cons ⟨rfl, fun _ => rfl, fun h => absurd h (by decide)⟩
          (List.Forall₂.cons ⟨rfl, fun _ => rfl, fun h => absurd h (by decide)⟩
            (List.Forall₂.cons ⟨rfl, fun _ => rfl, fun h => absurd h (by decide)⟩
              List.Forall₂.nil)))))

/-- Callable for the C4 witness (returns a non-null value). -/
def c4wFn : Callable := ⟨"fw", fun _ _ => .ok (Val.str "v")⟩

/-- Old workflow for the C4 witness: one operation with a non-null cache. -/
def c4wOld : Workflow :=
  Workflow.make ⟨["a"], []⟩ [Operation.make "a" (.inr c4wFn) (some ⟨"h", Val.str "v"⟩)]

/-- New workflow for the C4 witness: same graph, same id, same callable. -/
def c4wNew : Workflow :=
  Workflow.make ⟨["a"], []⟩ [Operation.make "a" (.inr c4wFn) none]

/-- Witness for `c4_sync_identical_preserves_caches` at a concrete
single-operation workflow with a non-null cached value. -/
theorem c4_sync_identical_preserves_caches_witness :
    ∃ w' arg', Workflow.sync c4wOld c4wNew = .ok (w', arg') ∧
      arg'.operations = c4wNew.operations ∧
      w'.graph = c4wNew.graph ∧
      ∀ idq op, assocGet c4wOld.operations.lookup idq = some op →
        ∃ op', assocGet w'.operations.lookup idq = some op' ∧
          op'.cache = op.cache ∧ op'.done = op.done :=
  c4_sync_identical_preserves_caches c4wOld c4wNew
    (by
      intro op hop
      simp only [c4wOld, Workflow.make, List.mem_cons, List.not_mem_nil, or_false] at hop
      rcases hop with rfl
      rfl)
    (by decide)
    rfl
    rfl
    (by
      intro op hop cch hc
      simp only [c4wOld, Workflow.make, List.mem_cons, List.not_mem_nil, or_false] at hop
      rcases hop with rfl
      cases hc
      decide)
    (List.Forall₂.cons ⟨rfl, rfl⟩ List.Forall₂.nil)

/-! ### Claim C10 — sync mutates its argument -/

theorem assocGet_assocDel_ne {α : Type} (l : List (String × α)) (key k : String)
    (h : ¬ k = key) : assocGet (assocDel l key) k = assocGet l k := by
  induction l with
  | nil => rfl
  | cons p rest ih =>
    unfold assocDel assocGet at ih ⊢
    by_cases hp : p.1 = key
    · rw [List.filter_cons_of_neg (by simp [hp])]
      rw [List.find?_cons_of_neg _ (by
        simp only [decide_eq_true_eq, hp]
        exact fun hh => h hh.symm)]
      exact ih
    · rw [List.filter_cons_of_pos (by simp [hp])]
      by_cases hpk : p.1 = k
      · rw [List.find?_cons_of_pos _ (by simpa using hpk),
          List.find?_cons_of_pos _ (by simpa using hpk)]
      · rw [List.find?_cons_of_neg _ (by simpa using hpk),
          List.find?_cons_of_neg _ (by simpa using hpk)]
        exact ih

/-- Invariant holding before sync's new-to-old pass reaches the operation
with a changed hash: the argument collection still binds `idq` to the new
workflow's own (unmutated) object `nOp`, and no entry for `idq` has been
inserted by reference into the working copy yet. -/
def c10PreInv (nOp : Operation) (idq : String) (st : SyncState) : Prop :=
  st.arg.value.find? (fun o => o.id = idq) = some nOp ∧
  assocGet st.arg.lookup idq = some nOp ∧
  idq ∉ st.shared

/-- Invariant holding after the new-to-old pass has processed the
operation with a changed hash: both the working copy and the argument
collection bind `idq` to a cache-cleared object, and the binding is by
reference (`idq` is tracked in `shared`). -/
def c10DoneInv (idq : String) (st : SyncState) : Prop :=
  (∃ opa, assocGet st.arg.lookup idq = some opa ∧ opa.cache = none) ∧
  (∃ opw, assocGet st.work.lookup idq = some opw ∧ opw.cache = none) ∧
  idq ∈ st.shared

theorem syncPhase2_ok_append (oldOps : OpsCollection) (oldGraph : Graph) :
    ∀ (l₁ l₂ : List Operation) (st stOut : SyncState),
      syncPhase2 oldOps oldGraph (l₁ ++ l₂) st = .ok stOut →
      ∃ mid, syncPhase2 oldOps oldGraph l₁ st = .ok mid ∧
        syncPhase2 oldOps oldGraph l₂ mid = .ok stOut := by
  intro l₁
  induction l₁ with
  | nil =>
    intro l₂ st stOut h
    exact ⟨st, rfl, h⟩
  | cons op rest ih =>
    intro l₂ st stOut h
    rw [List.cons_append] at h
    simp only [syncPhase2] at h ⊢
    cases hlk : assocGet oldOps.lookup
        ((st.arg.value.find? (fun o => o.id = op.id)).getD op).id with
    | none =>
      simp only [hlk] at h ⊢
      exact ih l₂ _ stOut h
    | some oldOp =>
      simp only [hlk] at h ⊢
      by_cases hif : (Operation.marshal
          ((st.arg.value.find? (fun o => o.id = op.id)).getD op)).func.hash ≠
          (Operation.marshal oldOp).func.hash
      · rw [if_pos hif] at h ⊢
        cases hpre : oldGraph.preorder
            [((st.arg.value.find? (fun o => o.id = op.id)).getD op).id] with
        | error e =>
          simp only [hpre] at h
          exact Except.noConfusion h
        | ok downIds =>
          simp only [hpre] at h ⊢
          cases hclr : syncClearDown
              ⟨st.work.updateOp ((st.arg.value.find? (fun o => o.id = op.id)).getD op),
               st.arg,
               st.shared ++ [((st.arg.value.find? (fun o => o.id = op.id)).getD op).id]⟩
              downIds with
          | error e =>
            simp only [hclr] at h
            exact Except.noConfusion h
          | ok st2 =>
            simp only [hclr] at h ⊢
            exact ih l₂ st2 stOut h
      · rw [if_neg hif] at h ⊢
        exact ih l₂ st stOut h

theorem c10_step_id (st : SyncState) (op : Operation) :
    ((st.arg.value.find? (fun o => o.id = op.id)).getD op).id = op.id := by
  cases hf : st.arg.value.find? (fun o => o.id = op.id) with
  | none => rfl
  | some x =>
    show x.id = op.id
    simpa using List.find?_some hf

theorem c10_pre_preserve (oldOps : OpsCollection) (oldGraph : Graph)
    (nOp : Operation) (idq : String) :
    ∀ (ops : List Operation) (st stOut : SyncState),
      syncPhase2 oldOps oldGraph ops st = .ok stOut →
      (∀ op ∈ ops, ¬ op.id = idq) →
      c10PreInv nOp idq st → c10PreInv nOp idq stOut := by
  intro ops
  induction ops with
  | nil =>
    intro st stOut h _ hinv
    have h' : (Except.ok st : Except JsError SyncState) = .ok stOut := h
    cases h'
    exact hinv
  | cons op rest ih =>
    intro st stOut h hall hinv
    have hne : ¬ op.id = idq := hall op (List.mem_cons_self _ _)
    have hrest : ∀ o ∈ rest, ¬ o.id = idq := fun o ho => hall o (List.mem_cons_of_mem _ ho)
    obtain ⟨hfind, hget, hsh⟩ := hinv
    have hnid : nOp.id = idq := by simpa using List.find?_some hfind
    simp only [syncPhase2] at h
    set nOpc := (st.arg.value.find? (fun o => o.id = op.id)).getD op with hnOpc
    have hcid : nOpc.id = op.id := c10_step_id st op
    have hshne : idq ∉ st.shared ++ [nOpc.id] := by
      intro hmem
      rcases List.mem_append.mp hmem with hmem | hmem
      · exact hsh hmem
      · have hq : idq = nOpc.id := by simpa using hmem
        rw [hcid] at hq
        exact hne hq.symm
    cases hlk : assocGet oldOps.lookup nOpc.id with
    | none =>
      simp only [hlk] at h
      exact ih _ stOut h hrest ⟨hfind, hget, hshne⟩
    | some oldOp =>
      simp only [hlk] at h
      by_cases hif : (Operation.marshal nOpc).func.hash ≠ (Operation.marshal oldOp).func.hash
      · rw [if_pos hif] at h
        cases hpre : oldGraph.preorder [nOpc.id] with
        | error e =>
          simp only [hpre] at h
          exact Except.noConfusion h
        | ok downIds =>
          simp only [hpre] at h
          cases hclr : syncClearDown
              ⟨st.work.updateOp nOpc, st.arg, st.shared ++ [nOpc.id]⟩ downIds with
          | error e =>
            simp only [hclr] at h
            exact Except.noConfusion h
          | ok st2 =>
            simp only [hclr] at h
            obtain ⟨hshared2, hwork2, harg2, hargval2⟩ :=
              syncClearDown_ok_spec downIds _ st2 hclr
            have hshared2' : st2.shared = st.shared ++ [nOpc.id] := hshared2
            have harg2' : ∀ k, assocGet st2.arg.lookup k =
                if k ∈ downIds ∧ k ∈ st.shared ++ [nOpc.id]
                then (assocGet st.arg.lookup k).map Operation.clear
                else assocGet st.arg.lookup k := harg2
            have hargval2' : st2.arg.value = st.arg.value.map
                (fun o => if o.id ∈ downIds ∧ o.id ∈ st.shared ++ [nOpc.id]
                  then o.clear else o) := hargval2
            refine ih _ stOut h hrest ⟨?_, ?_, ?_⟩
            · rw [hargval2']
              have hidpres : ∀ o : Operation,
                  ((fun o => if o.id ∈ downIds ∧ o.id ∈ st.shared ++ [nOpc.id]
                    then o.clear else o) o).id = o.id := by
                intro o
                show (if o.id ∈ downIds ∧ o.id ∈ st.shared ++ [nOpc.id]
                  then o.clear else o).id = o.id
                by_cases hc : o.id ∈ downIds ∧ o.id ∈ st.shared ++ [nOpc.id]
                · rw [if_pos hc]; rfl
                · rw [if_neg hc]
              rw [find?_map_preserve_id _ hidpres, hfind]
              show some (if nOp.id ∈ downIds ∧ nOp.id ∈ st.shared ++ [nOpc.id]
                then nOp.clear else nOp) = some nOp
              rw [if_neg (fun hc => hshne (hnid ▸ hc.2))]
            · rw [harg2' idq, if_neg (fun hc => hshne hc.2)]
              exact hget
            · rw [hshared2']
              exact hshne
      · rw [if_neg hif] at h
        exact ih _ stOut h hrest ⟨hfind, hget, hsh⟩

theorem c10_done_preserve (oldOps : OpsCollection) (oldGraph : Graph) (idq : String) :
    ∀ (ops : List Operation) (st stOut : SyncState),
      syncPhase2 oldOps oldGraph ops st = .ok stOut →
      (∀ op ∈ ops, ¬ op.id = idq) →
      c10DoneInv idq st → c10DoneInv idq stOut := by
  intro ops
  induction ops with
  | nil =>
    intro st stOut h _ hinv
    have h' : (Except.ok st : Except JsError SyncState) = .ok stOut := h
    cases h'
    exact hinv
  | cons op rest ih =>
    intro st stOut h hall hinv
    have hne : ¬ op.id = idq := hall op (List.mem_cons_self _ _)
    have hrest : ∀ o ∈ rest, ¬ o.id = idq := fun o ho => hall o (List.mem_cons_of_mem _ ho)
    obtain ⟨⟨opa, hgeta, hca⟩, ⟨opw, hgetw, hcw⟩, hsh⟩ := hinv
    simp only [syncPhase2] at h
    set nOpc := (st.arg.value.find? (fun o => o.id = op.id)).getD op with hnOpc
    have hcid : nOpc.id = op.id := c10_step_id st op
    have hqne : ¬ idq = nOpc.id := by
      rw [hcid]
      exact fun hq => hne hq.symm
    have hshmem : idq ∈ st.shared ++ [nOpc.id] := List.mem_append.mpr (Or.inl hsh)
    cases hlk : assocGet oldOps.lookup nOpc.id with
    | none =>
      simp only [hlk] at h
      refine ih _ stOut h hrest ⟨⟨opa, hgeta, hca⟩, ⟨opw, ?_, hcw⟩, hshmem⟩
      show assocGet (st.work.pushOp nOpc).lookup idq = some opw
      rw [pushOp_lookup_get, if_neg hqne]
      exact hgetw
    | some oldOp =>
      simp only [hlk] at h
      by_cases hif : (Operation.marshal nOpc).func.hash ≠ (Operation.marshal oldOp).func.hash
      · rw [if_pos hif] at h
        cases hpre : oldGraph.preorder [nOpc.id] with
        | error e =>
          simp only [hpre] at h
          exact Except.noConfusion h
        | ok downIds =>
          simp only [hpre] at h
          cases hclr : syncClearDown
              ⟨st.work.updateOp nOpc, st.arg, st.shared ++ [nOpc.id]⟩ downIds with
          | error e =>
            simp only [hclr] at h
            exact Except.noConfusion h
          | ok st2 =>
            simp only [hclr] at h
            obtain ⟨hshared2, hwork2, harg2, hargval2⟩ :=
              syncClearDown_ok_spec downIds _ st2 hclr
            have hshared2' : st2.shared = st.shared ++ [nOpc.id] := hshared2
            have hwork2' : ∀ k, assocGet st2.work.lookup k =
                if k ∈ downIds
                then (assocGet (st.work.updateOp nOpc).lookup k).map Operation.clear
                else assocGet (st.work.updateOp nOpc).lookup k := hwork2
            have harg2' : ∀ k, assocGet st2.arg.lookup k =
                if k ∈ downIds ∧ k ∈ st.shared ++ [nOpc.id]
                then (assocGet st.arg.lookup k).map Operation.clear
                else assocGet st.arg.lookup k := harg2
            have hwu : assocGet (st.work.updateOp nOpc).lookup idq = some opw := by
              rw [updateOp_lookup_get, if_neg hqne]
              exact hgetw
            refine ih _ stOut h hrest ⟨?_, ?_, ?_⟩
            · rw [harg2' idq]
              by_cases hc : idq ∈ downIds ∧ idq ∈ st.shared ++ [nOpc.id]
              · rw [if_pos hc, hgeta]
                exact ⟨opa.clear, rfl, rfl⟩
              · rw [if_neg hc]
                exact ⟨opa, hgeta, hca⟩
            · rw [hwork2' idq]
              by_cases hc : idq ∈ downIds
              · rw [if_pos hc, hwu]
                exact ⟨opw.clear, rfl, rfl⟩
              · rw [if_neg hc, hwu]
                exact ⟨opw, rfl, hcw⟩
            · rw [hshared2']
              exact hshmem
      · rw [if_neg hif] at h
        exact ih _ stOut h hrest ⟨⟨opa, hgeta, hca⟩, ⟨opw, hgetw, hcw⟩, hsh⟩

theorem c10_trigger (oldOps : OpsCollection) (oldGraph : Graph)
    (nOp oldOp : Operation) (idq : String)
    (hold : assocGet oldOps.lookup idq = some oldOp)
    (hdiff : ¬ nOp.func.hash = oldOp.func.hash) :
    ∀ (opT : Operation) (post : List Operation) (st stOut : SyncState),
      opT.id = idq →
      syncPhase2 oldOps oldGraph (opT :: post) st = .ok stOut →
      (∀ op ∈ post, ¬ op.id = idq) →
      c10PreInv nOp idq st →
      c10DoneInv idq stOut := by
  intro opT post st stOut hTid h hpost hinv
  obtain ⟨hfind, hget, hsh⟩ := hinv
  have hnid : nOp.id = idq := by simpa using List.find?_some hfind
  simp only [syncPhase2] at h
  rw [hTid] at h
  rw [hfind] at h
  simp only [Option.getD_some] at h
  rw [hnid, hold] at h
  simp only [marshal_func_hash] at h
  rw [if_pos hdiff] at h
  cases hpre : oldGraph.preorder [idq] with
  | error e =>
    simp only [hpre] at h
    exact Except.noConfusion h
  | ok downIds =>
    simp only [hpre] at h
    cases hclr : syncClearDown ⟨st.work.updateOp nOp, st.arg, st.shared ++ [idq]⟩ downIds with
    | error e =>
      simp only [hclr] at h
      exact Except.noConfusion h
    | ok st2 =>
      simp only [hclr] at h
      have hdq : idq ∈ downIds :=
        (Graph.preorder_mem hpre idq).mpr
          ⟨idq, List.mem_cons_self _ _, Graph.Reaches.refl idq⟩
      obtain ⟨hshared2, hwork2, harg2, hargval2⟩ := syncClearDown_ok_spec downIds _ st2 hclr
      have hshared2' : st2.shared = st.shared ++ [idq] := hshared2
      have hwork2' : ∀ k, assocGet st2.work.lookup k =
          if k ∈ downIds
          then (assocGet (st.work.updateOp nOp).lookup k).map Operation.clear
          else assocGet (st.work.updateOp nOp).lookup k := hwork2
      have harg2' : ∀ k, assocGet st2.arg.lookup k =
          if k ∈ downIds ∧ k ∈ st.shared ++ [idq]
          then (assocGet st.arg.lookup k).map Operation.clear
          else assocGet st.arg.lookup k := harg2
      refine c10_done_preserve oldOps oldGraph idq post st2 stOut h hpost ⟨?_, ?_, ?_⟩
      · refine ⟨nOp.clear, ?_, rfl⟩
        rw [harg2' idq,
          if_pos ⟨hdq, List.mem_append.mpr (Or.inr (List.mem_singleton.mpr rfl))⟩, hget]
        rfl
      · refine ⟨nOp.clear, ?_, rfl⟩
        rw [hwork2' idq, if_pos hdq, updateOp_lookup_get, if_pos hnid.symm]
        rfl
      · rw [hshared2']
        exact List.mem_append.mpr (Or.inr (List.mem_singleton.mpr rfl))

theorem c10_phase3_preserve (idq : String) :
    ∀ (ops : List Operation) (st : SyncState),
      c10DoneInv idq st → c10DoneInv idq (syncPhase3 ops st) := by
  intro ops
  induction ops with
  | nil =>
    intro st hinv
    exact hinv
  | cons op rest ih =>
    intro st hinv
    obtain ⟨⟨opa, hgeta, hca⟩, ⟨opw, hgetw, hcw⟩, hsh⟩ := hinv
    cases hlk : assocGet st.arg.lookup op.id with
    | none =>
      have hne : ¬ op.id = idq := fun hq => by
        rw [hq, hgeta] at hlk
        exact Option.noConfusion hlk
      have hstep : syncPhase3 (op :: rest) st =
          syncPhase3 rest ⟨⟨st.work.value.filter (fun o => ¬ o.id = op.id),
            assocDel st.work.lookup op.id⟩, st.arg, st.shared⟩ := by
        simp only [syncPhase3, hlk]
      rw [hstep]
      refine ih _ ⟨⟨opa, hgeta, hca⟩, ⟨opw, ?_, hcw⟩, hsh⟩
      show assocGet (assocDel st.work.lookup op.id) idq = some opw
      rw [assocGet_assocDel_ne st.work.lookup op.id idq (fun hq => hne hq.symm)]
      exact hgetw
    | some x =>
      have hstep : syncPhase3 (op :: rest) st = syncPhase3 rest st := by
        simp only [syncPhase3, hlk]
      rw [hstep]
      exact ih st ⟨⟨opa, hgeta, hca⟩, ⟨opw, hgetw, hcw⟩, hsh⟩

/-- C10: `old.sync(new)` mutates its argument: for every operation id
present in both workflows whose function hashes differ, the operation
object inserted into the synced workflow is the argument workflow's own
object by reference, and the downstream invalidation clears it — after
sync returns, that operation inside the argument workflow has no cache
and `done` is false (even if it was cached before the call), and the
synced workflow's entry for the id is equally cleared. -/
theorem c10_sync_mutates_argument
    (old newW : Workflow) (idq : String) (nOp oOp : Operation)
    (w' arg' : Workflow)
    (hlkNew : newW.operations.lookup = buildLookup newW.operations.value)
    (hNodupNew : (newW.operations.value.map (fun o => o.id)).Nodup)
    (hnew : assocGet newW.operations.lookup idq = some nOp)
    (hold : assocGet old.operations.lookup idq = some oOp)
    (hdiff : ¬ nOp.func.hash = oOp.func.hash)
    (hsync : Workflow.sync old newW = .ok (w', arg')) :
    (∃ opa, assocGet arg'.operations.lookup idq = some opa ∧
      opa.cache = none ∧ opa.done = false) ∧
    (∃ opw, assocGet w'.operations.lookup idq = some opw ∧
      opw.cache = none ∧ opw.done = false) := by
  simp only [Workflow.sync] at hsync
  cases hclone : old.clone with
  | error e =>
    simp only [hclone] at hsync
    exact Except.noConfusion hsync
  | ok workflow =>
    simp only [hclone] at hsync
    cases hph2 : syncPhase2 old.operations old.graph newW.operations.value
        ⟨workflow.operations, newW.operations, []⟩ with
    | error e =>
      simp only [hph2] at hsync
      exact Except.noConfusion hsync
    | ok st =>
      simp only [hph2] at hsync
      have hpair := Except.ok.inj hsync
      have hw' : w' = ⟨newW.graph, (syncPhase3 old.operations.value st).work⟩ :=
        (congrArg Prod.fst hpair).symm
      have harg' : arg' = ⟨newW.graph, (syncPhase3 old.operations.value st).arg⟩ :=
        (congrArg Prod.snd hpair).symm
      obtain ⟨hmemN, hnid⟩ :=
        buildLookup_get_some newW.operations.value idq nOp hNodupNew (hlkNew ▸ hnew)
      obtain ⟨pre, post, hsplit⟩ := List.append_of_mem hmemN
      have hnodup' := hNodupNew
      rw [hsplit] at hnodup'
      obtain ⟨hpre_ne, hpost_ne⟩ := nodup_split_ne hnodup'
      have hpre_ne' : ∀ o ∈ pre, ¬ o.id = idq :=
        fun o ho hq => hpre_ne o ho (hq.trans hnid.symm)
      have hpost_ne' : ∀ o ∈ post, ¬ o.id = idq :=
        fun o ho hq => hpost_ne o ho (hq.trans hnid.symm)
      rw [hsplit] at hph2
      obtain ⟨mid, h1, h2⟩ :=
        syncPhase2_ok_append old.operations old.graph pre (nOp :: post) _ st hph2
      have hinv0 : c10PreInv nOp idq ⟨workflow.operations, newW.operations, []⟩ := by
        refine ⟨?_, hnew, List.not_mem_nil idq⟩
        show newW.operations.value.find? (fun o => o.id = idq) = some nOp
        rw [← hnid]
        exact find?_id_self newW.operations.value nOp hmemN hNodupNew
      have hmid : c10PreInv nOp idq mid :=
        c10_pre_preserve old.operations old.graph nOp idq pre _ mid h1 hpre_ne' hinv0
      have hdone : c10DoneInv idq st :=
        c10_trigger old.operations old.graph nOp oOp idq hold hdiff nOp post mid st
          hnid h2 hpost_ne' hmid
      have hfinal : c10DoneInv idq (syncPhase3 old.operations.value st) :=
        c10_phase3_preserve idq old.operations.value st hdone
      obtain ⟨⟨opa, hgeta, hca⟩, ⟨opw, hgetw, hcw⟩, _⟩ := hfinal
      constructor
      · refine ⟨opa, ?_, hca, ?_⟩
        · rw [harg']
          exact hgeta
        · unfold Operation.done
          rw [hca]
          rfl
      · refine ⟨opw, ?_, hcw, ?_⟩
        · rw [hw']
          exact hgetw
        · unfold Operation.done
          rw [hcw]
          rfl

/-- Old-workflow callable for the C10 witness. -/
def c10Fn1 : Callable := ⟨"f1", fun _ _ => .ok (Val.str "v1")⟩

/-- New-workflow callable for the C10 witness: a different source, so a
different function hash. -/
def c10Fn2 : Callable := ⟨"f2", fun _ _ => .ok (Val.str "v2")⟩

/-- Old workflow for the C10 witness. -/
def c10Old : Workflow :=
  Workflow.make ⟨["a"], []⟩ [Operation.make "a" (.inr c10Fn1) none]

/-- New (argument) workflow for the C10 witness: the operation is cached
before the sync call. -/
def c10New : Workflow :=
  Workflow.make ⟨["a"], []⟩ [Operation.make "a" (.inr c10Fn2) (some ⟨"h", Val.str "old"⟩)]

/-- The result pair of the C10 witness sync. -/
def c10SyncPair : Workflow × Workflow := ((Workflow.sync c10Old c10New).toOption).get!

/-- Witness for `c10_sync_mutates_argument`: a one-node workflow whose
operation's hash changed; after the sync, the argument workflow's cached
operation has lost its cache. -/
theorem c10_sync_mutates_argument_witness :
    (∃ opa, assocGet c10SyncPair.2.operations.lookup "a" = some opa ∧
      opa.cache = none ∧ opa.done = false) ∧
    (∃ opw, assocGet c10SyncPair.1.operations.lookup "a" = some opw ∧
      opw.cache = none ∧ opw.done = false) :=
  c10_sync_mutates_argument c10Old c10New "a"
    (Operation.make "a" (.inr c10Fn2) (some ⟨"h", Val.str "old"⟩))
    (Operation.make "a" (.inr c10Fn1) none)
    c10SyncPair.1 c10SyncPair.2
    rfl
    (by decide)
    rfl
    rfl
    (by decide)
    rfl

/-! ### Claim C7 — upto -/

theorem operation_eval_ok_shape (op : Operation) (ctx : Val) (input : Option Val)
    (v : Val) (op' : Operation) (b : Bool)
    (h : op.eval ctx input = .ok (v, op', b)) :
    op'.id = op.id ∧ ∃ hsh, op'.cache = some ⟨hsh, v⟩ := by
  simp only [Operation.eval] at h
  cases hc : op.cache with
  | some c =>
    simp only [hc] at h
    by_cases hh : c.hash = Operation.computeHash input
    · rw [if_pos hh] at h
      have h' : (Except.ok (c.value, op, false) :
          Except JsError (Val × Operation × Bool)) = .ok (v, op', b) := h
      cases h'
      exact ⟨rfl, c.hash, by rw [hc]⟩
    · rw [if_neg hh] at h
      cases hi : op.func.invoke ctx input with
      | error e =>
        rw [hi] at h
        exact Except.noConfusion h
      | ok v0 =>
        rw [hi] at h
        have h' : (Except.ok (v0, (⟨op.id, op.func, some ⟨Operation.computeHash input, v0⟩⟩ :
            Operation), true) : Except JsError (Val × Operation × Bool)) = .ok (v, op', b) := h
        cases h'
        exact ⟨rfl, Operation.computeHash input, rfl⟩
  | none =>
    simp only [hc] at h
    cases hi : op.func.invoke ctx input with
    | error e =>
      rw [hi] at h
      exact Except.noConfusion h
    | ok v0 =>
      rw [hi] at h
      have h' : (Except.ok (v0, (⟨op.id, op.func, some ⟨Operation.computeHash input, v0⟩⟩ :
          Operation), true) : Except JsError (Val × Operation × Bool)) = .ok (v, op', b) := h
      cases h'
      exact ⟨rfl, Operation.computeHash input, rfl⟩

theorem reachesPlus_last_edge {g : Graph} {x node : String} :
    g.ReachesPlus x node ↔ ∃ e ∈ g.edges, e.2 = node ∧ (x = e.1 ∨ g.ReachesPlus x e.1) := by
  constructor
  · intro h
    cases h with
    | single he => exact ⟨(x, node), he, rfl, Or.inl rfl⟩
    | snoc hp he =>
      rename_i b
      exact ⟨(b, node), he, rfl, Or.inr hp⟩
  · rintro ⟨e, he, h2, rfl | hp⟩
    · subst h2
      exact Graph.ReachesPlus.single (show (e.1, e.2) ∈ g.edges from he)
    · subst h2
      exact Graph.ReachesPlus.snoc hp (show (e.1, e.2) ∈ g.edges from he)

theorem computeRequired_mem : ∀ (fuel : Nat) (g : Graph),
    (∀ (acc : List String) (node : String) (r : List String),
      computeRequiredToNode fuel g acc node = .ok r →
      ∀ x, x ∈ r ↔ (x ∈ acc ∨ g.ReachesPlus x node)) ∧
    (∀ (acc : List String) (l : List (String × String)) (r : List String),
      computeRequiredFold fuel g acc l = .ok r →
      (∀ e ∈ l, e ∈ g.edges) →
      ∀ x, x ∈ r ↔ (x ∈ acc ∨ ∃ e ∈ l, x = e.1 ∨ g.ReachesPlus x e.1)) := by
  intro fuel
  induction fuel with
  | zero =>
    intro g
    constructor
    · intro acc node r h
      simp only [computeRequiredToNode] at h
      exact fun x => Except.noConfusion h
    · intro acc l r h hedges x
      match l with
      | [] =>
        simp only [computeRequiredFold] at h
        cases h
        simp
      | e :: rest =>
        simp only [computeRequiredFold, computeRequiredToNode] at h
        exact Except.noConfusion h
  | succ fuel ih =>
    intro g
    have hA : ∀ (acc : List String) (node : String) (r : List String),
        computeRequiredToNode (fuel + 1) g acc node = .ok r →
        ∀ x, x ∈ r ↔ (x ∈ acc ∨ g.ReachesPlus x node) := by
      intro acc node r h x
      simp only [computeRequiredToNode] at h
      cases hin : g.inEdges node with
      | none =>
        rw [hin] at h
        exact Except.noConfusion h
      | some edges =>
        rw [hin] at h
        have hfilter : g.edges.filter (fun e => e.2 = node) = edges := by
          unfold Graph.inEdges at hin
          by_cases hc : g.nodes.contains node
          · rw [if_pos hc] at hin
            exact Option.some.inj hin
          · rw [if_neg hc] at hin
            exact Option.noConfusion hin
        have hedges : ∀ e ∈ edges, e ∈ g.edges := by
          intro e he
          rw [← hfilter] at he
          exact List.mem_of_mem_filter he
        rw [(ih g).2 acc edges r h hedges x]
        constructor
        · rintro (hacc | ⟨e, he, hx⟩)
          · exact Or.inl hacc
          · refine Or.inr (reachesPlus_last_edge.mpr ⟨e, ?_, ?_, hx⟩)
            · rw [← hfilter] at he
              exact List.mem_of_mem_filter he
            · rw [← hfilter] at he
              simpa using List.of_mem_filter he
        · rintro (hacc | hrp)
          · exact Or.inl hacc
          · obtain ⟨e, he, h2, hx⟩ := reachesPlus_last_edge.mp hrp
            refine Or.inr ⟨e, ?_, hx⟩
            rw [← hfilter]
            exact List.mem_filter.mpr ⟨he, by simpa using h2⟩
    refine ⟨hA, ?_⟩
    intro acc l
    induction l generalizing acc with
    | nil =>
      intro r h _ x
      simp only [computeRequiredFold] at h
      cases h
      simp
    | cons e rest ihl =>
      intro r h hedges x
      simp only [computeRequiredFold] at h
      cases hstep : computeRequiredToNode (fuel + 1) g (acc ++ [e.1]) e.1 with
      | error err =>
        rw [hstep] at h
        exact Except.noConfusion h
      | ok acc' =>
        rw [hstep] at h
        have hrest : ∀ e' ∈ rest, e' ∈ g.edges :=
          fun e' he' => hedges e' (List.mem_cons_of_mem _ he')
        rw [ihl acc' r h hrest x, hA (acc ++ [e.1]) e.1 acc' hstep x]
        simp only [List.mem_append, List.mem_cons, List.not_mem_nil, or_false]
        constructor
        · rintro (((hacc | hx) | hrp) | ⟨e', he', hx⟩)
          · exact Or.inl hacc
          · exact Or.inr ⟨e, Or.inl rfl, Or.inl hx⟩
          · exact Or.inr ⟨e, Or.inl rfl, Or.inr hrp⟩
          · exact Or.inr ⟨e', Or.inr he', hx⟩
        · rintro (hacc | ⟨e', he' | he', hx⟩)
          · exact Or.inl (Or.inl (Or.inl hacc))
          · subst he'
            rcases hx with hx | hx
            · exact Or.inl (Or.inl (Or.inr hx))
            · exact Or.inl (Or.inr hx)
          · exact Or.inr ⟨e', he', hx⟩

/-- Consistency of the operation lookup: each binding's operation carries
the binding's key as its id, as the public constructors maintain. -/
def LookupIds (w : Workflow) : Prop :=
  ∀ k op, assocGet w.operations.lookup k = some op → op.id = k

theorem evalSource_props (w : Workflow) (id : String) (ctx : Val) (input : Option Val)
    (v : Val) (w1 : Workflow)
    (hlk : LookupIds w)
    (h : w.evalSource id ctx input = .ok (v, w1)) :
    w1.graph = w.graph ∧ LookupIds w1 ∧
    (∃ op', assocGet w1.operations.lookup id = some op' ∧ op'.id = id ∧
      ∃ hsh, op'.cache = some ⟨hsh, v⟩) ∧
    (∀ k, ¬ k = id → assocGet w1.operations.lookup k = assocGet w.operations.lookup k) := by
  simp only [Workflow.evalSource] at h
  by_cases hni : isNullish input
  · rw [if_pos hni] at h
    exact Except.noConfusion h
  · rw [if_neg hni] at h
    cases hget : assocGet w.operations.lookup id with
    | none =>
      simp only [hget, nonEmpty] at h
      exact Except.noConfusion h
    | some op =>
      simp only [hget, nonEmpty] at h
      cases hev : op.eval ctx input with
      | error e =>
        rw [hev] at h
        exact Except.noConfusion h
      | ok res =>
        obtain ⟨v0, op', b⟩ := res
        rw [hev] at h
        have h' : (Except.ok (v0, (⟨w.graph, w.operations.updateOp op'⟩ : Workflow)) :
            Except JsError (Val × Workflow)) = .ok (v, w1) := h
        cases h'
        obtain ⟨hid', hsh, hcache⟩ := operation_eval_ok_shape op ctx input v op' b hev
        have hopid : op.id = id := hlk id op hget
        have hopid' : op'.id = id := hid'.trans hopid
        refine ⟨rfl, ?_, ?_, ?_⟩
        · intro k op0 hk
          have hk' : (if k = op'.id then some op' else assocGet w.operations.lookup k) =
              some op0 := (updateOp_lookup_get w.operations op' k) ▸ hk
          by_cases hko : k = op'.id
          · rw [if_pos hko] at hk'
            cases hk'
            exact hko.symm
          · rw [if_neg hko] at hk'
            exact hlk k op0 hk'
        · refine ⟨op', ?_, hopid', hsh, hcache⟩
          show assocGet (w.operations.updateOp op').lookup id = some op'
          rw [updateOp_lookup_get, if_pos hopid'.symm]
        · intro k hkid
          show assocGet (w.operations.updateOp op').lookup k = _
          rw [updateOp_lookup_get, if_neg (fun hq => hkid (hq.trans hopid'))]

theorem evalWithEdges_props (w : Workflow) (id : String) (ctx : Val)
    (edges : List (String × String)) (v : Val) (w1 : Workflow)
    (hlk : LookupIds w)
    (h : w.evalWithEdges id ctx edges = .ok (v, w1)) :
    w1.graph = w.graph ∧ LookupIds w1 ∧
    (∃ op', assocGet w1.operations.lookup id = some op' ∧ op'.id = id ∧
      ∃ hsh, op'.cache = some ⟨hsh, v⟩) ∧
    (∀ k, ¬ k = id → assocGet w1.operations.lookup k = assocGet w.operations.lookup k) := by
  simp only [Workflow.evalWithEdges] at h
  cases hci : compositeInput w.operations.lookup edges with
  | error e =>
    rw [hci] at h
    exact Except.noConfusion h
  | ok fields =>
    rw [hci] at h
    cases hget : assocGet w.operations.lookup id with
    | none =>
      simp only [hget, nonEmpty] at h
      exact Except.noConfusion h
    | some op =>
      simp only [hget, nonEmpty] at h
      cases hev : op.eval ctx (some (Val.obj fields)) with
      | error e =>
        rw [hev] at h
        exact Except.noConfusion h
      | ok res =>
        obtain ⟨v0, op', b⟩ := res
        rw [hev] at h
        have h' : (Except.ok (v0, (⟨w.graph, w.operations.updateOp op'⟩ : Workflow)) :
            Except JsError (Val × Workflow)) = .ok (v, w1) := h
        cases h'
        obtain ⟨hid', hsh, hcache⟩ := operation_eval_ok_shape op ctx _ v op' b hev
        have hopid : op.id = id := hlk id op hget
        have hopid' : op'.id = id := hid'.trans hopid
        refine ⟨rfl, ?_, ?_, ?_⟩
        · intro k op0 hk
          have hk' : (if k = op'.id then some op' else assocGet w.operations.lookup k) =
              some op0 := (updateOp_lookup_get w.operations op' k) ▸ hk
          by_cases hko : k = op'.id
          · rw [if_pos hko] at hk'
            cases hk'
            exact hko.symm
          · rw [if_neg hko] at hk'
            exact hlk k op0 hk'
        · refine ⟨op', ?_, hopid', hsh, hcache⟩
          show assocGet (w.operations.updateOp op').lookup id = some op'
          rw [updateOp_lookup_get, if_pos hopid'.symm]
        · intro k hkid
          show assocGet (w.operations.updateOp op').lookup k = _
          rw [updateOp_lookup_get, if_neg (fun hq => hkid (hq.trans hopid'))]

theorem workflow_eval_props (w : Workflow) (id : String) (ctx : Val) (input : Option Val)
    (v : Val) (w1 : Workflow)
    (hlk : LookupIds w)
    (h : w.eval id ctx input = .ok (v, w1)) :
    w1.graph = w.graph ∧ LookupIds w1 ∧
    (∃ op', assocGet w1.operations.lookup id = some op' ∧ op'.id = id ∧
      ∃ hsh, op'.cache = some ⟨hsh, v⟩) ∧
    (∀ k, ¬ k = id → assocGet w1.operations.lookup k = assocGet w.operations.lookup k) := by
  simp only [Workflow.eval] at h
  cases hin : w.graph.inEdges id with
  | none =>
    rw [hin] at h
    exact evalSource_props w id ctx input v w1 hlk h
  | some edges =>
    cases edges with
    | nil =>
      rw [hin] at h
      exact evalSource_props w id ctx input v w1 hlk h
    | cons e rest =>
      rw [hin] at h
      exact evalWithEdges_props w id ctx (e :: rest) v w1 hlk h

theorem uptoLoop_run (ctx : Val) (input : Option Val) (target : String) :
    ∀ (pre : List String) (w : Workflow) (trace : List String)
      (w' : Workflow) (tr : List String) (v : Option Val),
      Workflow.uptoLoop ctx input target (pre ++ [target]) w trace = .ok (w', tr, v) →
      target ∉ pre →
      LookupIds w →
      tr = trace ++ (pre ++ [target]) ∧
      w'.graph = w.graph ∧
      (∃ val op', v = some val ∧ assocGet w'.operations.lookup target = some op' ∧
        op'.id = target ∧ ∃ hsh, op'.cache = some ⟨hsh, val⟩) ∧
      (∀ k, k ∉ pre ++ [target] →
        assocGet w'.operations.lookup k = assocGet w.operations.lookup k) := by
  intro pre
  induction pre with
  | nil =>
    intro w trace w' tr v h htne hlk
    rw [List.nil_append] at h
    simp only [Workflow.uptoLoop] at h
    cases hget : assocGet w.operations.lookup target with
    | none =>
      simp only [hget, nonEmpty] at h
      exact Except.noConfusion h
    | some op =>
      simp only [hget, nonEmpty] at h
      have hopid : op.id = target := hlk target op hget
      cases hev : w.eval op.id ctx input with
      | error e =>
        rw [hev] at h
        exact Except.noConfusion h
      | ok res =>
        obtain ⟨v0, w1⟩ := res
        simp only [hev] at h
        rw [if_pos hopid] at h
        have h' : (Except.ok (w1, trace ++ [op.id], some v0) :
            Except JsError (Workflow × List String × Option Val)) = .ok (w', tr, v) := h
        cases h'
        rw [hopid] at hev
        obtain ⟨hg, hlk1, ⟨op', hgets, hopid', hsh, hcache⟩, hframe⟩ :=
          workflow_eval_props w target ctx input v0 _ hlk hev
        refine ⟨by rw [hopid, List.nil_append], hg, ⟨v0, op', rfl, hgets, hopid', hsh, hcache⟩, ?_⟩
        intro k hk
        have hkt : ¬ k = target := by
          intro hq
          exact hk (by rw [hq, List.nil_append]; exact List.mem_singleton.mpr rfl)
        exact hframe k hkt
  | cons o pre' ih =>
    intro w trace w' tr v h htne hlk
    have hot : ¬ o = target := fun hq => htne (hq ▸ List.mem_cons_self _ _)
    have htne' : target ∉ pre' := fun hq => htne (List.mem_cons_of_mem _ hq)
    rw [List.cons_append] at h
    simp only [Workflow.uptoLoop] at h
    cases hget : assocGet w.operations.lookup o with
    | none =>
      simp only [hget, nonEmpty] at h
      exact Except.noConfusion h
    | some op =>
      simp only [hget, nonEmpty] at h
      have hopid : op.id = o := hlk o op hget
      cases hev : w.eval op.id ctx input with
      | error e =>
        rw [hev] at h
        exact Except.noConfusion h
      | ok res =>
        obtain ⟨v0, w1⟩ := res
        simp only [hev] at h
        rw [if_neg (fun hq => hot (hopid.symm.trans hq))] at h
        rw [hopid] at hev h
        obtain ⟨hg1, hlk1, _, hframe1⟩ :=
          workflow_eval_props w o ctx input v0 w1 hlk hev
        obtain ⟨htr, hg, hval, hframe⟩ := ih w1 (trace ++ [o]) w' tr v h htne' hlk1
        refine ⟨?_, hg.trans hg1, hval, ?_⟩
        · rw [htr, List.append_assoc]
          rfl
        · intro k hk
          have hko : ¬ k = o := fun hq => hk (hq ▸ List.mem_cons_self _ _)
          have hk' : k ∉ pre' ++ [target] := fun hq => hk (List.mem_cons_of_mem _ hq)
          rw [hframe k hk']
          exact hframe1 k hko

theorem topsort_pairwise_RP {g : Graph} {l : List String}
    (h : g.topsort? = some l) (hwf : g.wf = true) (hnodes : g.nodes.Nodup) :
    l.Pairwise (fun a b => ¬ g.ReachesPlus b a) := by
  have hnl : l.Nodup := (Graph.topsort_perm h).nodup_iff.mp hnodes
  rw [List.pairwise_iff_getElem]
  intro i j hi hj hij hrp
  have hlt := Graph.topsort_RP_indexOf h hwf hrp
  rw [List.indexOf_getElem hnl i hi, List.indexOf_getElem hnl j hj] at hlt
  exact Nat.lt_irrefl _ (hlt.trans hij)

theorem reachesPlus_start_mem {g : Graph} (hwf : g.wf = true) {x y : String}
    (h : g.ReachesPlus x y) : x ∈ g.nodes := by
  induction h with
  | single he => exact (Graph.wf_mem_edges hwf he).1
  | snoc _ _ ih => exact ih

/-- C7: for a workflow with a well-formed graph, unique node ids and an
id-consistent operation lookup, a successful `upto(id, ...)` evaluates
exactly the operations backward-reachable from `id` (including `id`
itself), each exactly once, in a topological order (no operation is
evaluated after one it reaches), ending at `id`; it returns the value
produced for `id` (cached at `id`, which is `done`), and leaves every
operation not backward-reachable from `id` untouched. -/
theorem c7_upto_spec
    (w : Workflow) (idq : String) (ctx : Val) (input : Option Val)
    (hwf : w.graph.wf = true)
    (hnodes : w.graph.nodes.Nodup)
    (hlk : LookupIds w)
    (w' : Workflow) (tr : List String) (v : Option Val)
    (h : w.upto (some idq) ctx input = .ok (w', tr, v)) :
    (∀ x, x ∈ tr ↔ w.graph.Reaches x idq) ∧
    tr.Nodup ∧
    tr.Pairwise (fun a b => ¬ w.graph.ReachesPlus b a) ∧
    (∃ pre, tr = pre ++ [idq]) ∧
    (∃ val op', v = some val ∧ assocGet w'.operations.lookup idq = some op' ∧
      op'.done = true ∧ ∃ hsh, op'.cache = some ⟨hsh, val⟩) ∧
    (∀ k, ¬ w.graph.Reaches k idq →
      assocGet w'.operations.lookup k = assocGet w.operations.lookup k) := by
  simp only [Workflow.upto, Workflow.resolveUptoId] at h
  cases hreq : computeRequiredToNode (w.graph.nodes.length + 1) w.graph [idq] idq with
  | error e =>
    simp only [hreq] at h
    exact Except.noConfusion h
  | ok requiredNodes =>
    simp only [hreq] at h
    cases htop : w.graph.topsort? with
    | none =>
      simp only [htop] at h
      exact Except.noConfusion h
    | some topsortNodes =>
      simp only [htop] at h
      have hmemreq : ∀ x, x ∈ requiredNodes ↔ (x = idq ∨ w.graph.ReachesPlus x idq) := by
        intro x
        rw [(computeRequired_mem (w.graph.nodes.length + 1) w.graph).1 [idq] idq
          requiredNodes hreq x]
        simp
      have hidqmem : idq ∈ w.graph.nodes := by
        have hreq' := hreq
        simp only [computeRequiredToNode] at hreq'
        cases hin : w.graph.inEdges idq with
        | none =>
          rw [hin] at hreq'
          exact Except.noConfusion hreq'
        | some edges =>
          unfold Graph.inEdges at hin
          by_cases hc : w.graph.nodes.contains idq
          · simpa [List.contains, List.elem_eq_mem] using hc
          · rw [if_neg hc] at hin
            exact Option.noConfusion hin
      have hreach_mem : ∀ x, w.graph.Reaches x idq → x ∈ w.graph.nodes := by
        intro x hx
        rcases Graph.reaches_iff.mp hx with rfl | hrp
        · exact hidqmem
        · exact reachesPlus_start_mem hwf hrp
      set filtered := topsortNodes.filter (fun n => requiredNodes.contains n) with hfiltered
      have hfiltmem : ∀ x, x ∈ filtered ↔ w.graph.Reaches x idq := by
        intro x
        rw [hfiltered, List.mem_filter]
        constructor
        · rintro ⟨hxt, hxr⟩
          rw [Graph.reaches_iff]
          exact (hmemreq x).mp (by simpa [List.contains, List.elem_eq_mem] using hxr)
        · intro hx
          refine ⟨(Graph.topsort_perm htop).mem_iff.mp (hreach_mem x hx), ?_⟩
          have := (hmemreq x).mpr (Graph.reaches_iff.mp hx)
          simpa [List.contains, List.elem_eq_mem] using this
      have hnf : filtered.Nodup :=
        List.Nodup.filter _ ((Graph.topsort_perm htop).nodup_iff.mp hnodes)
      have hpw : filtered.Pairwise (fun a b => ¬ w.graph.ReachesPlus b a) :=
        List.Pairwise.sublist (List.filter_sublist topsortNodes)
          (topsort_pairwise_RP htop hwf hnodes)
      have hidqfilt : idq ∈ filtered := (hfiltmem idq).mpr (Graph.Reaches.refl idq)
      obtain ⟨pre, post, hsplit⟩ := List.append_of_mem hidqfilt
      have hpost : post = [] := by
        cases post with
        | nil => rfl
        | cons y post' =>
          exfalso
          have hyf : y ∈ filtered := by
            rw [hsplit]
            exact List.mem_append.mpr
              (Or.inr (List.mem_cons_of_mem _ (List.mem_cons_self _ _)))
          have hpw' := hpw
          rw [hsplit] at hpw'
          have hQ : ¬ w.graph.ReachesPlus y idq := by
            have h2 := (List.pairwise_append.mp hpw').2.1
            exact (List.pairwise_cons.mp h2).1 y (List.mem_cons_self _ _)
          have hnf' := hnf
          rw [hsplit] at hnf'
          have hd := (List.nodup_append.mp hnf').2.1
          have hne : ¬ idq = y :=
            fun hq => (List.nodup_cons.mp hd).1 (hq ▸ List.mem_cons_self _ _)
          rcases Graph.reaches_iff.mp ((hfiltmem y).mp hyf) with hq | hrp
          · exact hne hq.symm
          · exact hQ hrp
      rw [hpost] at hsplit
      have hpre_notin : idq ∉ pre := by
        have hnf' := hnf
        rw [hsplit] at hnf'
        have hd := (List.nodup_append.mp hnf').2.2
        exact fun hq => hd hq (List.mem_singleton.mpr rfl)
      rw [hsplit] at h
      obtain ⟨htr, hg, ⟨val, op', hv, hgets, hopid', hsh, hcache⟩, hframe⟩ :=
        uptoLoop_run ctx input idq pre w [] w' tr v h hpre_notin hlk
      rw [List.nil_append] at htr
      refine ⟨?_, ?_, ?_, ⟨pre, htr⟩, ⟨val, op', hv, hgets, ?_, hsh, hcache⟩, ?_⟩
      · intro x
        rw [htr, ← hsplit]
        exact hfiltmem x
      · rw [htr, ← hsplit]
        exact hnf
      · rw [htr, ← hsplit]
        exact hpw
      · unfold Operation.done
        rw [hcache]
        rfl
      · intro k hk
        exact hframe k (fun hq => hk ((hfiltmem k).mp (show k ∈ filtered by
          rw [hsplit]; exact hq)))

/-- Operation `a` of the C7 witness (no cache). -/
def c7OpA : Operation := Operation.make "a" (.inr ⟨"fa", fun _ _ => .ok (Val.str "outA")⟩) none

/-- Operation `b` of the C7 witness (no cache). -/
def c7OpB : Operation := Operation.make "b" (.inr ⟨"fb", fun _ _ => .ok (Val.str "outB")⟩) none

/-- Two-node workflow `a → b` of the C7 witness. -/
def c7Workflow : Workflow :=
  Workflow.make ⟨["a", "b"], [("a", "b")]⟩ [c7OpA, c7OpB]

/-- The state of operation `a` after the C7 witness run: cached output
under the hash of input `7`. -/
def c7ResultOpA : Operation :=
  ⟨"a", c7OpA.func, some ⟨Operation.computeHash (some (Val.num 7)), Val.str "outA"⟩⟩

theorem c7_upto_concrete :
    c7Workflow.upto (some "a") (Val.obj []) (some (Val.num 7)) =
      .ok (⟨c7Workflow.graph, c7Workflow.operations.updateOp c7ResultOpA⟩, ["a"],
        some (Val.str "outA")) := by
  have h1 : computeRequiredToNode (c7Workflow.graph.nodes.length + 1) c7Workflow.graph
      ["a"] "a" =
      computeRequiredFold c7Workflow.graph.nodes.length c7Workflow.graph ["a"] [] := by
    simp only [computeRequiredToNode]
    rfl
  have h2 : computeRequiredFold c7Workflow.graph.nodes.length c7Workflow.graph ["a"] [] =
      .ok ["a"] := by
    simp only [computeRequiredFold]
  simp only [Workflow.upto, Workflow.resolveUptoId]
  rw [h1.trans h2]
  rfl

/-- Witness for `c7_upto_spec` at the two-node workflow `a → b` with no
caches: running `upto("a")` with an input. -/
theorem c7_upto_spec_witness :
    (∀ x, x ∈ ["a"] ↔ c7Workflow.graph.Reaches x "a") ∧
    (["a"] : List String).Nodup ∧
    (["a"] : List String).Pairwise (fun a b => ¬ c7Workflow.graph.ReachesPlus b a) ∧
    (∃ pre, ["a"] = pre ++ ["a"]) ∧
    (∃ val op', (some (Val.str "outA") : Option Val) = some val ∧
      assocGet (⟨c7Workflow.graph, c7Workflow.operations.updateOp c7ResultOpA⟩ :
        Workflow).operations.lookup "a" = some op' ∧
      op'.done = true ∧ ∃ hsh, op'.cache = some ⟨hsh, val⟩) ∧
    (∀ k, ¬ c7Workflow.graph.Reaches k "a" →
      assocGet (⟨c7Workflow.graph, c7Workflow.operations.updateOp c7ResultOpA⟩ :
        Workflow).operations.lookup k = assocGet c7Workflow.operations.lookup k) :=
  c7_upto_spec c7Workflow "a" (Val.obj []) (some (Val.num 7))
    (by decide)
    (by decide)
    (by
      intro k op hk
      have hk' : Option.map (fun p => p.2)
          (List.find? (fun p => p.1 = k) [("a", c7OpA), ("b", c7OpB)]) = some op := hk
      by_cases h1 : "a" = k
      · rw [List.find?_cons_of_pos _ (by simpa using h1)] at hk'
        have hk'' : some c7OpA = some op := hk'
        cases hk''
        show c7OpA.id = k
        rw [← h1]
        rfl
      · rw [List.find?_cons_of_neg _ (by simpa using h1)] at hk'
        by_cases h2 : "b" = k
        · rw [List.find?_cons_of_pos _ (by simpa using h2)] at hk'
          have hk'' : some c7OpB = some op := hk'
          cases hk''
          show c7OpB.id = k
          rw [← h2]
          rfl
        · rw [List.find?_cons_of_neg _ (by simpa using h2)] at hk'
          exact Option.noConfusion hk')
    ⟨c7Workflow.graph, c7Workflow.operations.updateOp c7ResultOpA⟩ ["a"]
    (some (Val.str "outA"))
    c7_upto_concrete
